import Mathlib

/-!
Verification of the Sokobot frontend (static/script.js) and the solver
interface it is specified against.

The frontend keeps a board state `{ width, height, walls, goals, boxes,
player }` whose cell keys are `"r,c"` strings; we embed keys as integer
pairs (the string encoding is injective on them).  Sets become `Finset`,
the nullable `player` becomes `Option`.
-/

namespace Sokobot

/-- A grid coordinate `(row, column)`; JS keys are the strings `"r,c"`. -/
abbrev Pos := ℤ × ℤ

/-- `boardState = { rows, player, boxes, goals, walls, width, height }`
from script.js. -/
structure BoardState where
  width : ℤ
  height : ℤ
  walls : Finset Pos
  goals : Finset Pos
  boxes : Finset Pos
  player : Option Pos
deriving DecidableEq

/-- The eight move characters accepted by the playback code: lowercase
walks, uppercase pushes. -/
inductive Move where
  | u | d | l | r | U | D | L | R
deriving DecidableEq

/-- The `DELTA` table: `u/U:(-1,0), d/D:(1,0), l/L:(0,-1), r/R:(0,1)`. -/
def DELTA : Move → Pos
  | .u => (-1, 0) | .U => (-1, 0)
  | .d => (1, 0)  | .D => (1, 0)
  | .l => (0, -1) | .L => (0, -1)
  | .r => (0, 1)  | .R => (0, 1)

/-- `move.toUpperCase()` on the eight move characters. -/
def toUpperCase : Move → Move
  | .u => .U | .d => .D | .l => .L | .r => .R
  | .U => .U | .D => .D | .L => .L | .R => .R

/-- `move === move.toUpperCase()` — the push tag of a move. -/
def isPush (m : Move) : Bool := m = toUpperCase m

/-- Adding a direction delta to a cell: `(r + dr, c + dc)`. -/
def stepPos (p d : Pos) : Pos := (p.1 + d.1, p.2 + d.2)

/-- `applyMove(state, move)` from script.js: shift the player by the
move's delta; on a push additionally delete a box at the player's
destination and add one at the cell one step further. -/
def applyMove (state : BoardState) (move : Move) : BoardState :=
  match state.player with
  | none => state
  | some p =>
    let d := DELTA move
    let np := stepPos p d
    if isPush move then
      let boxTarget := stepPos np d
      { state with boxes := insert boxTarget (state.boxes.erase np),
                   player := some np }
    else
      { state with player := some np }

/-- The `for` loop of `goToStep`: apply the listed moves in order. -/
def replayMoves (s : BoardState) (moves : List Move) : BoardState :=
  moves.foldl applyMove s

/-! ### Level parsing (`parseLevel` in script.js)

The input text is already split at newlines into a list of character
rows (`text.split("\n")`); each cell is classified by its character. -/

/-- Accumulator of the parse loop. -/
structure ParseAcc where
  walls : Finset Pos
  goals : Finset Pos
  boxes : Finset Pos
  player : Option Pos

/-- One iteration of the inner parse loop, classifying character `ch`
at cell `pos`. -/
def parseChar (acc : ParseAcc) (pos : Pos) (ch : Char) : ParseAcc :=
  if ch = '#' then { acc with walls := insert pos acc.walls }
  else if ch = '.' then { acc with goals := insert pos acc.goals }
  else if ch = '$' then { acc with boxes := insert pos acc.boxes }
  else if ch = '@' then { acc with player := some pos }
  else if ch = '*' then { acc with boxes := insert pos acc.boxes,
                                   goals := insert pos acc.goals }
  else if ch = '+' then { acc with player := some pos,
                                   goals := insert pos acc.goals }
  else acc

/-- Inner loop over the characters of row `r`, starting at column `c`. -/
def parseCols (acc : ParseAcc) (r c : ℤ) : List Char → ParseAcc
  | [] => acc
  | ch :: rest => parseCols (parseChar acc (r, c) ch) r (c + 1) rest

/-- Outer loop over the rows, starting at row `r`. -/
def parseRows (acc : ParseAcc) (r : ℤ) : List (List Char) → ParseAcc
  | [] => acc
  | row :: rest => parseRows (parseCols acc r 0 row) (r + 1) rest

/-- `Math.max(...lines.map(l => l.length))`.  (For an empty line list JS
would yield `-Infinity`; `text.split` always returns at least one line,
so that case is unreachable and we return `0` there.) -/
def maxLineLen (lines : List (List Char)) : ℕ :=
  lines.foldr (fun l acc => max l.length acc) 0

/-- `parseLevel(text)` from script.js, on the newline-split rows. -/
def parseLevel (lines : List (List Char)) : BoardState :=
  let acc := parseRows ⟨∅, ∅, ∅, none⟩ 0 lines
  { width := (maxLineLen lines : ℤ), height := (lines.length : ℤ),
    walls := acc.walls, goals := acc.goals, boxes := acc.boxes,
    player := acc.player }

/-- The character of the level text at row `i`, column `j` (if any). -/
def charAt (lines : List (List Char)) (i j : ℕ) : Option Char :=
  (lines.get? i).bind (fun row => row.get? j)

/-- Characters that set the parser's `player` field. -/
def isPlayerChar (ch : Char) : Prop := ch = '@' ∨ ch = '+'

instance (ch : Char) : Decidable (isPlayerChar ch) := by
  unfold isPlayerChar; infer_instance

/-- The player cells of one row, in column order. -/
def playerCellsCols (r c : ℤ) : List Char → List Pos
  | [] => []
  | ch :: rest =>
    (if isPlayerChar ch then [(r, c)] else []) ++ playerCellsCols r (c + 1) rest

/-- The player cells of the whole text, in row-major order. -/
def playerCellsRows (r : ℤ) : List (List Char) → List Pos
  | [] => []
  | row :: rest => playerCellsCols r 0 row ++ playerCellsRows (r + 1) rest

/-! ### Interior flood fill (`computeInterior` in script.js)

`renderBoard` passes `interior = new Set([...walls])`; `computeInterior`
adds the player cell plus every box and goal cell, then runs a queue
BFS from the player whose expansion condition is
`in-bounds ∧ not already in interior ∧ not a wall`.  The JS loop
terminates because every enqueue adds a fresh in-bounds cell to the
set; we supply the matching fuel `height*width + 1` explicitly. -/

/-- The neighbour offsets `[[-1,0],[1,0],[0,-1],[0,1]]`. -/
def neighborDeltas : List Pos := [(-1, 0), (1, 0), (0, -1), (0, 1)]

/-- `nr >= 0 && nr < state.height && nc >= 0 && nc < state.width`. -/
def inBoundsP (s : BoardState) (p : Pos) : Prop :=
  0 ≤ p.1 ∧ p.1 < s.height ∧ 0 ≤ p.2 ∧ p.2 < s.width

instance (s : BoardState) (p : Pos) : Decidable (inBoundsP s p) := by
  unfold inBoundsP; infer_instance

/-- One neighbour check of the BFS body: if the neighbour is in bounds,
unvisited and not a wall, add it to the interior set and the queue. -/
def expandStep (s : BoardState) (p : Pos) (acc : Finset Pos × List Pos)
    (d : Pos) : Finset Pos × List Pos :=
  let n := stepPos p d
  if inBoundsP s n ∧ n ∉ acc.1 ∧ n ∉ s.walls then
    (insert n acc.1, acc.2 ++ [n])
  else acc

/-- Processing one dequeued cell: check its four neighbours in order. -/
def expandCell (s : BoardState) (p : Pos) (I : Finset Pos) :
    Finset Pos × List Pos :=
  neighborDeltas.foldl (expandStep s p) (I, [])

/-- The `while (queue.length > 0)` loop, with explicit fuel. -/
def bfsAux (s : BoardState) : ℕ → List Pos → Finset Pos → Finset Pos
  | 0, _, I => I
  | _ + 1, [], I => I
  | fuel + 1, p :: q, I =>
    let res := expandCell s p I
    bfsAux s fuel (q ++ res.2) res.1

/-- Fuel that outlasts the JS loop: at most `height*width` cells are
ever enqueued on top of the initial player cell. -/
def interiorFuel (s : BoardState) : ℕ := s.height.toNat * s.width.toNat + 1

/-- The set the BFS starts from: the caller's wall copy, plus the
player cell and every box and goal cell added up front. -/
def seeds (s : BoardState) (pl : Pos) : Finset Pos :=
  insert pl (s.walls ∪ s.boxes ∪ s.goals)

/-- `computeInterior(interior, state)` from script.js (including the
caller's initialisation of `interior` to a copy of `walls`); returns
the final interior set.  With no player it returns the walls copy
untouched. -/
def computeInterior (s : BoardState) : Finset Pos :=
  match s.player with
  | none => s.walls
  | some pl => bfsAux s (interiorFuel s) [pl] (seeds s pl)

/-- Two cells adjacent via one of the four neighbour offsets. -/
def adjacent (p n : Pos) : Prop := ∃ d ∈ neighborDeltas, n = stepPos p d

/-- A cell the JS BFS may step onto: in bounds and not among the
pre-seeded cells (walls, boxes, goals, the player cell). -/
def freeCell (s : BoardState) (pl : Pos) (n : Pos) : Prop :=
  inBoundsP s n ∧ n ∉ seeds s pl

/-- The in-bounds cells not among the BFS seeds, as a finite set (used
to bound how many cells the JS loop can ever enqueue). -/
def freeFinset (s : BoardState) (pl : Pos) : Finset Pos :=
  ((Finset.Ico (0 : ℤ) s.height) ×ˢ (Finset.Ico (0 : ℤ) s.width)).filter
    (fun n => n ∉ seeds s pl)

/-- Cells reachable from the player through cells the BFS actually
expands through (in-bounds cells that are not walls, boxes, goals or
the player cell). -/
inductive ReachAvoid (s : BoardState) (pl : Pos) : Pos → Prop where
  | base (n : Pos) : adjacent pl n → freeCell s pl n → ReachAvoid s pl n
  | step (m n : Pos) : ReachAvoid s pl m → adjacent m n → freeCell s pl n →
      ReachAvoid s pl n

/-- Follows the claim's words: connectivity from the player through
box-free floor cells, where floor means in-bounds and not a wall (goal
cells count as ordinary floor). -/
inductive ReachClaim (s : BoardState) (pl : Pos) : Pos → Prop where
  | base (n : Pos) : adjacent pl n → inBoundsP s n → n ∉ s.walls →
      n ∉ s.boxes → ReachClaim s pl n
  | step (m n : Pos) : ReachClaim s pl m → adjacent m n → inBoundsP s n →
      n ∉ s.walls → n ∉ s.boxes → ReachClaim s pl n

/-! ### The playback entry point (`goToStep` in script.js) -/

/-- The solve result the frontend stores: `{ moves, pushes,
states_explored }`. -/
structure Solution where
  moves : List Move
  pushes : ℕ
  statesExplored : ℕ

/-- The frontend's mutable globals that `goToStep` reads and writes. -/
structure SystemState where
  currentLevel : List (List Char)
  solution : Option Solution
  stepIndex : ℤ
  boardState : Option BoardState

/-- `goToStep(n)` from script.js: no-op without a solution; otherwise
clamp `n` into `[0, moves.length]`, store it as `stepIndex`, and
rebuild `boardState` from the freshly parsed level by applying the
first `n` moves. -/
def goToStep (sys : SystemState) (n : ℤ) : SystemState :=
  match sys.solution with
  | none => sys
  | some sol =>
    let k := max 0 (min n (sol.moves.length : ℤ))
    { sys with
        stepIndex := k,
        boardState :=
          some (replayMoves (parseLevel sys.currentLevel)
            (sol.moves.take k.toNat)) }

/-! ### Puzzle editor (Step E of script.js) -/

/-- `cell.base` of an editor cell. -/
inductive EBase where
  | floor | wall | goal
deriving DecidableEq

/-- `cell.entity` of an editor cell. -/
inductive EEntity where
  | none | box | player
deriving DecidableEq

/-- One layered editor cell `{ base, entity }`. -/
structure ECell where
  base : EBase
  entity : EEntity
deriving DecidableEq

/-- The editor grid, a 2D array of layered cells. -/
abbrev EditorGrid := List (List ECell)

/-- The counting loop of `updateValidation`: boxes with a box entity. -/
def countBoxes (g : EditorGrid) : ℕ :=
  (g.map (fun row => (row.filter (fun cell => cell.entity = EEntity.box)).length)).sum

/-- The counting loop of `updateValidation`: cells with a goal base. -/
def countGoals (g : EditorGrid) : ℕ :=
  (g.map (fun row => (row.filter (fun cell => cell.base = EBase.goal)).length)).sum

/-- The counting loop of `updateValidation`: some cell has the player. -/
def hasPlayerCell (g : EditorGrid) : Bool :=
  g.any (fun row => row.any (fun cell => cell.entity = EEntity.player))

/-- The four validation messages `updateValidation` can push. -/
inductive EProblem where
  | needPlayer | needBox | needGoal | countMismatch
deriving DecidableEq

/-- The `problems` list built by `updateValidation`. -/
def updateValidationProblems (g : EditorGrid) : List EProblem :=
  let boxes := countBoxes g
  let goals := countGoals g
  let hasPlayer := hasPlayerCell g
  (if !hasPlayer then [EProblem.needPlayer] else []) ++
  (if boxes = 0 then [EProblem.needBox] else []) ++
  (if goals = 0 then [EProblem.needGoal] else []) ++
  (if boxes ≠ goals ∧ boxes > 0 ∧ goals > 0 then [EProblem.countMismatch] else [])

/-- `editorSolveBtn.disabled` is cleared exactly when `problems` is
empty; this is the enabled flag of the solve button. -/
def editorSolveEnabled (g : EditorGrid) : Bool :=
  (updateValidationProblems g).isEmpty

/-- The `CHAR_MAP` of `editorGridToText` (total on the cell type, so
the `|| " "` fallback is unreachable). -/
def charOfCell (cell : ECell) : Char :=
  match cell.base, cell.entity with
  | .wall, _ => '#'
  | .floor, .none => ' '
  | .floor, .box => '$'
  | .floor, .player => '@'
  | .goal, .none => '.'
  | .goal, .box => '*'
  | .goal, .player => '+'

/-- `editorGridToText()`: one character per cell, rows joined with
newlines (represented here as the list of rows, which is what
`parseLevel` recovers by splitting). -/
def editorGridToText (g : EditorGrid) : List (List Char) :=
  g.map (fun row => row.map charOfCell)

/-- The editor cell at row `i`, column `j` (if any). -/
def cellAt (g : EditorGrid) (i j : ℕ) : Option ECell :=
  (g.get? i).bind (fun row => row.get? j)

/-! ### The solver's validating parser, modelled from the spec

`solver.py` is not part of this repository snapshot (only its design
document and the API spec that calls `parse_level` are), so the
validation behaviour is modelled from the spec. -/

/-- Modelled from the spec: the reasons the missing `parse_level` of
`solver.py` can name in a `MalformedLevel` condition — "player count
≠ 1, box count ≠ goal count, or empty grid", plus the "at least one
box" rule of §4.1. -/
inductive MalformedReason where
  | player | noBoxes | boxGoalMismatch | emptyBoard
deriving DecidableEq

/-- Number of player characters (`@` or `+`) in the level text. -/
def playerCount (lines : List (List Char)) : ℕ :=
  (lines.map (fun row => (row.filter (fun ch => ch = '@' ∨ ch = '+')).length)).sum

/-- Number of box characters (`$` or `*`) in the level text. -/
def boxCount (lines : List (List Char)) : ℕ :=
  (lines.map (fun row => (row.filter (fun ch => ch = '$' ∨ ch = '*')).length)).sum

/-- Number of goal characters (`.`, `*` or `+`) in the level text. -/
def goalCount (lines : List (List Char)) : ℕ :=
  (lines.map (fun row => (row.filter (fun ch => ch = '.' ∨ ch = '*' ∨ ch = '+')).length)).sum

/-- An empty grid: no cells at all. -/
def gridEmpty (lines : List (List Char)) : Prop :=
  ∀ row ∈ lines, row = []

instance (lines : List (List Char)) : Decidable (gridEmpty lines) := by
  unfold gridEmpty; infer_instance

/-- Modelled from the spec: `parse_level` of the missing `solver.py` —
"Validation: exactly one player, at least one box, box count equals
goal count; otherwise fails with a `MalformedLevel` condition naming
the specific violation (no player / box-goal count mismatch / empty
board)".  The empty-board check comes first so that an empty grid is
reported as such. -/
def parse_level (lines : List (List Char)) :
    Except MalformedReason BoardState :=
  if gridEmpty lines then .error .emptyBoard
  else if playerCount lines ≠ 1 then .error .player
  else if boxCount lines = 0 then .error .noBoxes
  else if boxCount lines ≠ goalCount lines then .error .boxGoalMismatch
  else .ok (parseLevel lines)

/-- Which well-formedness rule a `MalformedLevel` reason names. -/
def violating (r : MalformedReason) (lines : List (List Char)) : Prop :=
  match r with
  | .emptyBoard => gridEmpty lines
  | .player => playerCount lines ≠ 1
  | .noBoxes => boxCount lines = 0
  | .boxGoalMismatch => boxCount lines ≠ goalCount lines

/-! ### The solver core, modelled from the spec

`solver.py` itself is not part of this repository snapshot — only its
design document and the API spec that imports `parse_level` and
`solve_level` are.  The definitions below are therefore modelled from
the spec: the static level is a parsed `BoardState`, a search state is
`(playerRegionId, boxes)`, successors come from the push generator of
§4.3, states are pruned by the two deadlock detectors of §4.4, scored
by the matching heuristic of §4.5 and driven by the A* loop of §4.6.
Solution-move reconstruction is not modelled (the push-optimality
claim concerns only the returned push count). -/

/-- Generalisation of `ReachAvoid` to an arbitrary seed set `S`:
cells reachable from `pl` through in-bounds cells outside `S`. -/
inductive ReachVia (s : BoardState) (S : Finset Pos) (pl : Pos) : Pos → Prop where
  | base (n : Pos) : adjacent pl n → inBoundsP s n → n ∉ S → ReachVia s S pl n
  | step (m n : Pos) : ReachVia s S pl m → adjacent m n → inBoundsP s n →
      n ∉ S → ReachVia s S pl n

/-- The in-bounds cells outside a seed set `S`, as a finite set. -/
def freeFinsetVia (s : BoardState) (S : Finset Pos) : Finset Pos :=
  ((Finset.Ico (0 : ℤ) s.height) ×ˢ (Finset.Ico (0 : ℤ) s.width)).filter
    (fun n => n ∉ S)

/-- Row-major order on grid coordinates: smaller row first, then
smaller column. -/
def lexLe (a b : Pos) : Prop := a.1 < b.1 ∨ (a.1 = b.1 ∧ a.2 ≤ b.2)

instance : DecidableRel lexLe := fun a b => by unfold lexLe; infer_instance

instance : IsTrans Pos lexLe := ⟨by intro a b c; unfold lexLe; omega⟩

instance : IsAntisymm Pos lexLe :=
  ⟨by intro a b h1 h2; unfold lexLe at h1 h2; rw [Prod.ext_iff]; omega⟩

instance : IsTotal Pos lexLe := ⟨by intro a b; unfold lexLe; omega⟩

/-- Insertion of a cell into a row-major-sorted list. -/
def insLex (p : Pos) : List Pos → List Pos
  | [] => [p]
  | q :: t => if lexLe p q then p :: q :: t else q :: insLex p t

lemma insLex_cons (p q : Pos) (t : List Pos) :
    insLex p (q :: t) = if lexLe p q then p :: q :: t else q :: insLex p t :=
  rfl

lemma lexLe_of_not (a b : Pos) (h : ¬ lexLe a b) : lexLe b a := by
  unfold lexLe at *; omega

lemma lexLe_asym_eq (a b : Pos) (h1 : lexLe a b) (h2 : lexLe b a) : a = b := by
  unfold lexLe at h1 h2; rw [Prod.ext_iff]; omega

lemma insLex_comm (a b : Pos) :
    ∀ l, insLex a (insLex b l) = insLex b (insLex a l) := by
  intro l
  induction l with
  | nil =>
    show insLex a [b] = insLex b [a]
    rw [show insLex a [b] = if lexLe a b then [a, b] else [b, a] from rfl,
      show insLex b [a] = if lexLe b a then [b, a] else [a, b] from rfl]
    split_ifs with h1 h2 h2
    · rw [lexLe_asym_eq a b h1 h2]
    · rfl
    · rfl
    · exact absurd (lexLe_of_not a b h1) h2
  | cons q t ih =>
    by_cases hbq : lexLe b q <;> by_cases haq : lexLe a q
    · rw [insLex_cons b q t, if_pos hbq, insLex_cons a q t, if_pos haq,
        insLex_cons a b (q :: t), insLex_cons b a (q :: t)]
      split_ifs with h1 h2 h2
      · rw [lexLe_asym_eq a b h1 h2]
      · rw [insLex_cons b q t, if_pos hbq]
      · rw [insLex_cons a q t, if_pos haq]
      · exact absurd (lexLe_of_not a b h1) h2
    · have hab : ¬ lexLe a b := fun h => haq (Trans.trans h hbq)
      rw [insLex_cons b q t, if_pos hbq, insLex_cons a q t, if_neg haq,
        insLex_cons a b (q :: t), if_neg hab, insLex_cons a q t, if_neg haq,
        insLex_cons b q (insLex a t), if_pos hbq]
    · have hba : ¬ lexLe b a := fun h => hbq (Trans.trans h haq)
      rw [insLex_cons b q t, if_neg hbq, insLex_cons a q t, if_pos haq,
        insLex_cons a q (insLex b t), if_pos haq,
        insLex_cons b a (q :: t), if_neg hba, insLex_cons b q t, if_neg hbq]
    · rw [insLex_cons b q t, if_neg hbq, insLex_cons a q t, if_neg haq,
        insLex_cons a q (insLex b t), if_neg haq,
        insLex_cons b q (insLex a t), if_neg hbq, ih]

instance : LeftCommutative insLex := ⟨fun a b l => insLex_comm a b l⟩

lemma insLex_perm (p : Pos) : ∀ l : List Pos, (insLex p l).Perm (p :: l) := by
  intro l
  induction l with
  | nil => exact List.Perm.refl _
  | cons q t ih =>
    rw [insLex_cons]
    split_ifs with h
    · exact List.Perm.refl _
    · exact (List.Perm.cons q ih).trans (List.Perm.swap p q t)

lemma insLex_sorted (p : Pos) : ∀ l : List Pos, l.Sorted lexLe →
    (insLex p l).Sorted lexLe := by
  intro l
  induction l with
  | nil => intro _; simp [insLex]
  | cons q t ih =>
    intro hs
    rw [List.sorted_cons] at hs
    rw [insLex_cons]
    split_ifs with h
    · rw [List.sorted_cons]
      refine ⟨?_, List.sorted_cons.mpr hs⟩
      intro x hx
      rcases List.mem_cons.mp hx with rfl | hx
      · exact h
      · exact Trans.trans h (hs.1 x hx)
    · rw [List.sorted_cons]
      refine ⟨?_, ih hs.2⟩
      intro x hx
      rcases List.mem_cons.mp ((insLex_perm p t).mem_iff.mp hx) with heq | hx
      · rw [heq]
        exact lexLe_of_not p q h
      · exact hs.1 x hx

/-- A row-major insertion sort of a finite cell set (the model keeps
every list deterministic, as the spec recommends). -/
def sortFin (S : Finset Pos) : List Pos := Multiset.foldr insLex [] S.val

lemma foldr_insLex_sorted (s : Multiset Pos) :
    (Multiset.foldr insLex [] s).Sorted lexLe := by
  induction s using Multiset.induction_on with
  | empty => simp
  | cons a s ih =>
    rw [Multiset.foldr_cons]
    exact insLex_sorted a _ ih

lemma foldr_insLex_coe (s : Multiset Pos) :
    ((Multiset.foldr insLex [] s : List Pos) : Multiset Pos) = s := by
  induction s using Multiset.induction_on with
  | empty => simp
  | cons a s ih =>
    have h1 : ((insLex a (Multiset.foldr insLex [] s) : List Pos) : Multiset Pos)
        = ((a :: Multiset.foldr insLex [] s : List Pos) : Multiset Pos) :=
      Multiset.coe_eq_coe.mpr (insLex_perm a _)
    rw [Multiset.foldr_cons, h1, ← Multiset.cons_coe, ih]

/-- The insertion sort agrees with Mathlib's `Finset.sort`, so all the
order-theoretic sort lemmas transfer to it. -/
lemma sortFin_eq (S : Finset Pos) : sortFin S = S.sort lexLe := by
  refine List.eq_of_perm_of_sorted ?_ (foldr_insLex_sorted _)
    (Finset.sort_sorted _ _)
  rw [← Multiset.coe_eq_coe]
  unfold sortFin
  rw [foldr_insLex_coe, Finset.sort_eq]

/-- Modelled from the spec: a floor cell is any in-bounds non-wall
cell. -/
def floorCell (lvl : BoardState) (p : Pos) : Prop :=
  inBoundsP lvl p ∧ p ∉ lvl.walls

instance (lvl : BoardState) (p : Pos) : Decidable (floorCell lvl p) := by
  unfold floorCell; infer_instance

/-- The opposite of a direction delta. -/
def negDelta (d : Pos) : Pos := (-d.1, -d.2)

/-- A full game configuration: the player's literal position and the
box set. -/
structure Config where
  player : Pos
  boxes : Finset Pos
deriving DecidableEq

/-- Modelled from the spec: configurations the game can actually be
in — the player and all boxes on floor, the player not on a box, and
(after validation) as many boxes as goals. -/
def ValidCfg (lvl : BoardState) (c : Config) : Prop :=
  floorCell lvl c.player ∧ c.player ∉ c.boxes ∧
  (∀ b ∈ c.boxes, floorCell lvl b) ∧ c.boxes.card = lvl.goals.card

/-- Modelled from the spec: the player can walk from `pl` to a cell
through floor cells not occupied by boxes (the reachable region of
§4.2). -/
inductive PlayerReach (lvl : BoardState) (B : Finset Pos) (pl : Pos) : Pos → Prop where
  | refl : PlayerReach lvl B pl pl
  | step (m n : Pos) : PlayerReach lvl B pl m → adjacent m n →
      inBoundsP lvl n → n ∉ lvl.walls → n ∉ B → PlayerReach lvl B pl n

/-- Modelled from the spec (§4.3): one legal push.  For a box `b` and
direction `d`, the player must reach the cell opposite `d` from the
box, and the destination must be floor and unoccupied; the push puts
the player on the box's old cell and the box one step onward. -/
def PushStep (lvl : BoardState) (c c2 : Config) : Prop :=
  ∃ b ∈ c.boxes, ∃ d ∈ neighborDeltas,
    PlayerReach lvl c.boxes c.player (stepPos b (negDelta d)) ∧
    floorCell lvl (stepPos b d) ∧ stepPos b d ∉ c.boxes ∧
    c2 = ⟨b, insert (stepPos b d) (c.boxes.erase b)⟩

/-- A play of `n` legal pushes along the configuration sequence `π`. -/
def IsPushPath (lvl : BoardState) (π : ℕ → Config) (n : ℕ) : Prop :=
  ∀ i, i < n → PushStep lvl (π i) (π (i + 1))

/-- A solution of `n` pushes from configuration `c`: a play ending
with every box on a goal. -/
def SolutionFrom (lvl : BoardState) (c : Config) (n : ℕ) : Prop :=
  ∃ π : ℕ → Config, π 0 = c ∧ IsPushPath lvl π n ∧ (π n).boxes ⊆ lvl.goals

/-- The search state of §3: the canonical coordinate of the player's
region plus the box set. -/
structure SState where
  regionId : Pos
  boxes : Finset Pos
deriving DecidableEq

/-- Modelled from the spec (§4.2): the player's reachable region, by
the breadth-first flood fill over floor cells treating walls and every
current box as impassable. -/
def regionOf (lvl : BoardState) (B : Finset Pos) (pl : Pos) : Finset Pos :=
  bfsAux lvl (interiorFuel lvl) [pl] (insert pl (lvl.walls ∪ B)) \
    (lvl.walls ∪ B)

/-- The minimum coordinate of a cell set in row-major order. -/
def rowMajorMin (R : Finset Pos) : Option Pos := (sortFin R).head?

/-- Modelled from the spec (§4.2): state normalization — represent the
player by the row-major minimum of the reachable region. -/
def normalize (lvl : BoardState) (B : Finset Pos) (pl : Pos) : SState :=
  ⟨(rowMajorMin (regionOf lvl B pl)).getD pl, B⟩

/-- The search state representing a configuration: normalize its
player position against its box set. -/
def absState (lvl : BoardState) (c : Config) : SState :=
  normalize lvl c.boxes c.player

/-- The box list in row-major order (the spec's recommended
deterministic generation order). -/
def boxList (B : Finset Pos) : List Pos := sortFin B

/-- Modelled from the spec (§4.3): the push generator.  For every box
and direction, emit the normalized successor when the player-required
cell is in the reachable region and the destination is free floor. -/
def genPushes (lvl : BoardState) (s : SState) : List SState :=
  let R := regionOf lvl s.boxes s.regionId
  (boxList s.boxes).flatMap (fun b =>
    neighborDeltas.flatMap (fun d =>
      if stepPos b (negDelta d) ∈ R ∧ floorCell lvl (stepPos b d) ∧
          stepPos b d ∉ s.boxes then
        [normalize lvl (insert (stepPos b d) (s.boxes.erase b)) b]
      else []))

/-! #### Heuristic (§4.5) -/

/-- Manhattan distance between two cells. -/
def manhattan (a b : Pos) : ℕ := (a.1 - b.1).natAbs + (a.2 - b.2).natAbs

/-- Minimum of a list of naturals (`0` for the empty list, which the
heuristic never hits: a list always has at least one permutation). -/
def listMin : List ℕ → ℕ
  | [] => 0
  | x :: xs => xs.foldl min x

/-- Total Manhattan cost of pairing the `i`-th box with the `i`-th
goal. -/
def zipCost (bs gs : List Pos) : ℕ :=
  ((bs.zip gs).map (fun pr => manhattan pr.1 pr.2)).sum

/-- Modelled from the spec (§4.5): the admissible lower bound — the
minimum over all goal assignments (enumerated as goal permutations) of
the summed Manhattan distances. -/
def heuristic (lvl : BoardState) (B : Finset Pos) : ℕ :=
  listMin (((sortFin lvl.goals).permutations).map
    (fun p => zipCost (sortFin B) p))

/-! #### Deadlock detectors (§4.4) -/

/-- All floor cells of the level, as a finite set. -/
def floorFinset (lvl : BoardState) : Finset Pos :=
  ((Finset.Ico (0 : ℤ) lvl.height) ×ˢ (Finset.Ico (0 : ℤ) lvl.width)).filter
    (fun n => n ∉ lvl.walls)

/-- Modelled from the spec (§4.4.1): one step of the reverse-push
flood fill — add every floor cell from which a single box could be
pushed (player cell on floor) onto a cell already reverse-reachable. -/
def rrStep (lvl : BoardState) (X : Finset Pos) : Finset Pos :=
  X ∪ (floorFinset lvl).filter (fun y =>
    ∃ d ∈ neighborDeltas, stepPos y d ∈ X ∧
      floorCell lvl (stepPos y (negDelta d)))

/-- Modelled from the spec (§4.4.1): the union of the reverse-push
flood fills from all goals, iterated to its fixpoint (the iteration
count bounds the strictly growing chain). -/
def rrFix (lvl : BoardState) : Finset Pos :=
  (rrStep lvl)^[(lvl.goals ∪ floorFinset lvl).card + 1] lvl.goals

/-- Modelled from the spec (§4.4.2): a box of `B` is wedged (relative
to a marked set `M`) when both sides of each axis hold a wall or a
marked box. -/
def wedged (lvl : BoardState) (M : Finset Pos) (b : Pos) : Prop :=
  ((stepPos b (0, -1) ∈ lvl.walls ∨ stepPos b (0, -1) ∈ M) ∧
   (stepPos b (0, 1) ∈ lvl.walls ∨ stepPos b (0, 1) ∈ M)) ∧
  ((stepPos b (-1, 0) ∈ lvl.walls ∨ stepPos b (-1, 0) ∈ M) ∧
   (stepPos b (1, 0) ∈ lvl.walls ∨ stepPos b (1, 0) ∈ M))

instance (lvl : BoardState) (M : Finset Pos) (b : Pos) :
    Decidable (wedged lvl M b) := by
  unfold wedged; infer_instance

/-- One pass of the iterative freeze marking. -/
def freezeStep (lvl : BoardState) (B : Finset Pos) (M : Finset Pos) :
    Finset Pos :=
  M ∪ B.filter (wedged lvl M)

/-- Modelled from the spec (§4.4.2): the iterative fixpoint of frozen
boxes (at most one new box per pass, so `card + 1` passes converge). -/
def frozenSet (lvl : BoardState) (B : Finset Pos) : Finset Pos :=
  (freezeStep lvl B)^[B.card + 1] ∅

/-- Modelled from the spec (§4.4): a state is discarded when a box
sits on a static deadlock cell or a frozen box is off-goal. -/
def deadlocked (lvl : BoardState) (B : Finset Pos) : Prop :=
  (∃ b ∈ B, b ∉ rrFix lvl) ∨ (∃ b ∈ frozenSet lvl B, b ∉ lvl.goals)

instance (lvl : BoardState) (B : Finset Pos) :
    Decidable (deadlocked lvl B) := by
  unfold deadlocked; infer_instance

/-! #### Search driver (§4.6) -/

/-- A frontier entry `(state, gCost, hCost)`. -/
structure Entry where
  state : SState
  g : ℕ
  h : ℕ
deriving DecidableEq

/-- `fCost = gCost + hCost`. -/
def fVal (e : Entry) : ℕ := e.g + e.h

/-- Insert an entry behind every entry of no larger `fCost` (FIFO
among equal keys, the spec's recommended deterministic tie-break). -/
def insertEntry (e : Entry) : List Entry → List Entry
  | [] => [e]
  | x :: xs => if fVal x ≤ fVal e then x :: insertEntry e xs else e :: x :: xs

/-- All boxes on goals — the termination test. -/
def isGoalState (lvl : BoardState) (s : SState) : Prop :=
  s.boxes ⊆ lvl.goals

instance (lvl : BoardState) (s : SState) : Decidable (isGoalState lvl s) := by
  unfold isGoalState; infer_instance

/-- The solver's terminal outcome (move reconstruction and the
explored-state count are not modelled). -/
inductive SolveResult where
  | solved (pushCount : ℕ)
  | unsolved
deriving DecidableEq

/-- Modelled from the spec (§4.6): the A* loop.  Pop the lowest-`f`
entry; discard it if its state is already visited; stop successfully
on a goal state; otherwise mark it visited, generate successors,
discard deadlocked or visited ones, and insert the rest with
`g + 1` and their heuristic.  The fuel is the expansion cap. -/
def astarLoop (lvl : BoardState) : ℕ → List Entry → Finset SState → SolveResult
  | 0, _, _ => .unsolved
  | _ + 1, [], _ => .unsolved
  | fuel + 1, e :: rest, visited =>
    if e.state ∈ visited then astarLoop lvl fuel rest visited
    else if isGoalState lvl e.state then .solved e.g
    else
      let visited2 := insert e.state visited
      let succs := (genPushes lvl e.state).filter
        (fun t => ¬deadlocked lvl t.boxes ∧ t ∉ visited2)
      let frontier2 := succs.foldl
        (fun fr t => insertEntry ⟨t, e.g + 1, heuristic lvl t.boxes⟩ fr) rest
      astarLoop lvl fuel frontier2 visited2

/-- Modelled from the spec (§6): `solve(level, cap)` — normalize the
initial configuration and run the A* loop with the expansion cap. -/
def solve (lvl : BoardState) (cap : ℕ) : SolveResult :=
  match lvl.player with
  | none => .unsolved
  | some pl =>
    let s0 := normalize lvl lvl.boxes pl
    astarLoop lvl cap [⟨s0, 0, heuristic lvl s0.boxes⟩] ∅

/-! #### Invariants used to verify the A* driver -/

/-- The frontier is ordered by `fCost`. -/
def SortedF (l : List Entry) : Prop :=
  List.Sorted (fun a b => fVal a ≤ fVal b) l

/-- A frontier entry is honest: its `h` field is the heuristic of its
state and its `g` field is witnessed by a real push sequence from the
initial configuration. -/
def EntrySound (lvl : BoardState) (c0 : Config) (e : Entry) : Prop :=
  e.h = heuristic lvl e.state.boxes ∧
  ∃ (π : ℕ → Config) (m : ℕ), m ≤ e.g ∧ π 0 = c0 ∧ IsPushPath lvl π m ∧
    absState lvl (π m) = e.state

/-- The initial state is either already expanded or still queued with
`g = 0`. -/
def StartInv (lvl : BoardState) (c0 : Config) (visited : Finset SState)
    (frontier : List Entry) : Prop :=
  absState lvl c0 ∈ visited ∨
  ∃ e ∈ frontier, e.state = absState lvl c0 ∧ e.g = 0

/-- Goal states are never marked visited (the loop returns first). -/
def GoalFree (lvl : BoardState) (visited : Finset SState) : Prop :=
  ∀ s ∈ visited, ¬ isGoalState lvl s

/-- The ghost certificate carried by the visited set: `gv s` bounds
every deadlock-free push path reaching `s`, and expanding any visited
state keeps its live successors either visited or queued within
`gv s + 1`. -/
def VisInv (lvl : BoardState) (c0 : Config) (visited : Finset SState)
    (frontier : List Entry) (gv : SState → ℕ) : Prop :=
  (∀ s ∈ visited, ∀ (n : ℕ) (π : ℕ → Config), π 0 = c0 →
    IsPushPath lvl π n → (∀ i, i ≤ n → ¬ deadlocked lvl (π i).boxes) →
    absState lvl (π n) = s → gv s ≤ n) ∧
  (∀ s ∈ visited, ∀ t ∈ genPushes lvl s, ¬ deadlocked lvl t.boxes →
    t ∈ visited ∨ ∃ e ∈ frontier, e.state = t ∧ e.g ≤ gv s + 1)

/-- Characters the parser files under `walls`. -/
def isWallChar (ch : Char) : Prop := ch = '#'

instance (ch : Char) : Decidable (isWallChar ch) := by
  unfold isWallChar; infer_instance

/-- Characters the parser files under `goals`. -/
def isGoalChar (ch : Char) : Prop := ch = '.' ∨ ch = '*' ∨ ch = '+'

instance (ch : Char) : Decidable (isGoalChar ch) := by
  unfold isGoalChar; infer_instance

/-- Characters the parser files under `boxes`. -/
def isBoxChar (ch : Char) : Prop := ch = '$' ∨ ch = '*'

instance (ch : Char) : Decidable (isBoxChar ch) := by
  unfold isBoxChar; infer_instance

/-! ## Theorems -/

/-- No move has a zero delta, so stepping twice lands elsewhere than
stepping once. -/
lemma stepPos_ne (q : Pos) (m : Move) : stepPos q (DELTA m) ≠ q := by
  cases m <;> simp [stepPos, DELTA, Prod.ext_iff] <;> omega

/-- `applyMove` never touches the walls, goals, width or height. -/
lemma applyMove_static (s : BoardState) (m : Move) :
    (applyMove s m).walls = s.walls ∧ (applyMove s m).goals = s.goals ∧
    (applyMove s m).width = s.width ∧ (applyMove s m).height = s.height := by
  unfold applyMove
  cases s.player with
  | none => exact ⟨rfl, rfl, rfl, rfl⟩
  | some p =>
    dsimp only
    split <;> exact ⟨rfl, rfl, rfl, rfl⟩

/-- `replayMoves` never touches the walls, goals, width or height. -/
lemma replayMoves_static (s : BoardState) (moves : List Move) :
    (replayMoves s moves).walls = s.walls ∧
    (replayMoves s moves).goals = s.goals ∧
    (replayMoves s moves).width = s.width ∧
    (replayMoves s moves).height = s.height := by
  induction moves generalizing s with
  | nil => exact ⟨rfl, rfl, rfl, rfl⟩
  | cons m rest ih =>
    have h1 := applyMove_static s m
    have h2 := ih (applyMove s m)
    simp only [replayMoves, List.foldl_cons] at h2 ⊢
    exact ⟨h2.1.trans h1.1, h2.2.1.trans h1.2.1,
           h2.2.2.1.trans h1.2.2.1, h2.2.2.2.trans h1.2.2.2⟩

/-- C2: with the player at `p` and a box at `p + d`, the push move in
direction `d` puts the player at `p + d` and that box at `p + 2d`
(the box set becomes the old one with `p + d` removed and `p + 2d`
inserted); a walk move in direction `d` moves only the player, leaving
the box set unchanged. -/
theorem applyMove_push_and_walk (s : BoardState) (p : Pos) (m : Move)
    (hp : s.player = some p) :
    (isPush m = true → stepPos p (DELTA m) ∈ s.boxes →
      (applyMove s m).player = some (stepPos p (DELTA m)) ∧
      stepPos (stepPos p (DELTA m)) (DELTA m) ∈ (applyMove s m).boxes ∧
      (applyMove s m).boxes =
        insert (stepPos (stepPos p (DELTA m)) (DELTA m))
          (s.boxes.erase (stepPos p (DELTA m)))) ∧
    (isPush m = false →
      (applyMove s m).player = some (stepPos p (DELTA m)) ∧
      (applyMove s m).boxes = s.boxes) := by
  constructor
  · intro hpush _
    refine ⟨?_, ?_, ?_⟩ <;> simp [applyMove, hp, hpush]
  · intro hwalk
    constructor <;> simp [applyMove, hp, hwalk]

/-- Witness for C2 at a concrete one-box level: `@$ ` pushed right,
and `@$ ` walked up. -/
theorem applyMove_push_and_walk_witness :
    (parseLevel [['@', '$', ' ']]).player = some (0, 0) ∧
    isPush Move.R = true ∧
    stepPos (0, 0) (DELTA Move.R) ∈ (parseLevel [['@', '$', ' ']]).boxes ∧
    (applyMove (parseLevel [['@', '$', ' ']]) Move.R).player =
      some (stepPos (0, 0) (DELTA Move.R)) ∧
    stepPos (stepPos (0, 0) (DELTA Move.R)) (DELTA Move.R) ∈
      (applyMove (parseLevel [['@', '$', ' ']]) Move.R).boxes ∧
    isPush Move.u = false ∧
    (applyMove (parseLevel [['@', '$', ' ']]) Move.u).boxes =
      (parseLevel [['@', '$', ' ']]).boxes := by
  have h := applyMove_push_and_walk (parseLevel [['@', '$', ' ']]) (0, 0) Move.R rfl
  have h2 := applyMove_push_and_walk (parseLevel [['@', '$', ' ']]) (0, 0) Move.u rfl
  have hb : stepPos (0, 0) (DELTA Move.R) ∈ (parseLevel [['@', '$', ' ']]).boxes := by
    decide
  have hc := h.1 rfl hb
  exact ⟨rfl, rfl, hb, hc.1, hc.2.1, rfl, (h2.2 rfl).2⟩

/-- C5: replaying any move sequence on a freshly parsed level changes
only the player and the boxes: the walls, goals, width and height are
those of the parsed level.  (`goToStep` replays exactly like this:
`parseLevel` then repeated `applyMove`.) -/
theorem replay_preserves_static_level (lines : List (List Char))
    (moves : List Move) :
    (replayMoves (parseLevel lines) moves).walls = (parseLevel lines).walls ∧
    (replayMoves (parseLevel lines) moves).goals = (parseLevel lines).goals ∧
    (replayMoves (parseLevel lines) moves).width = (parseLevel lines).width ∧
    (replayMoves (parseLevel lines) moves).height = (parseLevel lines).height :=
  replayMoves_static (parseLevel lines) moves

/-- C7: the editor's solve button is enabled exactly when the grid has
a player, at least one box, at least one goal, and equal box and goal
counts. -/
theorem editor_solve_enabled_iff (g : EditorGrid) :
    editorSolveEnabled g = true ↔
      (hasPlayerCell g = true ∧ 0 < countBoxes g ∧ 0 < countGoals g ∧
        countBoxes g = countGoals g) := by
  unfold editorSolveEnabled updateValidationProblems
  cases h : hasPlayerCell g <;>
    simp only [h, Bool.not_true, Bool.not_false, if_true, if_false,
      List.isEmpty_iff, List.append_eq_nil] <;>
    split_ifs <;> simp_all <;> omega

/-- C9: `goToStep` clamps the requested step into `[0, moves.length]`,
rebuilds the board from the freshly parsed level text by applying
exactly the clamped number of moves, is insensitive to the previously
displayed step, and is idempotent. -/
theorem goToStep_clamps_and_rebuilds (sys : SystemState) (sol : Solution)
    (n : ℤ) (hsol : sys.solution = some sol) :
    (goToStep sys n).stepIndex = max 0 (min n (sol.moves.length : ℤ)) ∧
    0 ≤ (goToStep sys n).stepIndex ∧
    (goToStep sys n).stepIndex ≤ (sol.moves.length : ℤ) ∧
    (goToStep sys n).boardState =
      some (replayMoves (parseLevel sys.currentLevel)
        (sol.moves.take (max 0 (min n (sol.moves.length : ℤ))).toNat)) ∧
    (∀ sys2 : SystemState, sys2.currentLevel = sys.currentLevel →
      sys2.solution = sys.solution →
      (goToStep sys2 n).boardState = (goToStep sys n).boardState ∧
      (goToStep sys2 n).stepIndex = (goToStep sys n).stepIndex) ∧
    (goToStep (goToStep sys n) n).boardState = (goToStep sys n).boardState := by
  refine ⟨by simp [goToStep, hsol], ?_, ?_, by simp [goToStep, hsol], ?_, ?_⟩
  · simp [goToStep, hsol]
  · simp only [goToStep, hsol]
    have : (0 : ℤ) ≤ (sol.moves.length : ℤ) := by positivity
    omega
  · intro sys2 hlvl hs
    rw [hsol] at hs
    constructor <;> simp [goToStep, hsol, hs, hlvl]
  · simp [goToStep, hsol]

/-- Witness for C9 on a one-move solution, with `n = 5` (clamped to 1). -/
theorem goToStep_clamps_and_rebuilds_witness :
    (goToStep ⟨[['@', ' ']], some ⟨[Move.r], 0, 0⟩, 0, none⟩ 5).stepIndex =
      max 0 (min 5 ((1 : ℕ) : ℤ)) ∧
    (goToStep (goToStep ⟨[['@', ' ']], some ⟨[Move.r], 0, 0⟩, 0, none⟩ 5) 5).boardState =
      (goToStep ⟨[['@', ' ']], some ⟨[Move.r], 0, 0⟩, 0, none⟩ 5).boardState := by
  have h := goToStep_clamps_and_rebuilds
    ⟨[['@', ' ']], some ⟨[Move.r], 0, 0⟩, 0, none⟩ ⟨[Move.r], 0, 0⟩ 5 rfl
  exact ⟨h.1, h.2.2.2.2.2⟩

/-- C8, counterexample: push right with the player at `(0,0)`, no box
on the destination `(0,1)` but a box already on `(0,2)`: the box count
stays `1` instead of increasing to `2`, and is preserved even though
no box occupies the destination cell. -/
theorem applyMove_push_boxcount_cex :
    (parseLevel [['@', ' ', '$']]).player = some (0, 0) ∧
    isPush Move.R = true ∧
    (0, 1) ∉ (parseLevel [['@', ' ', '$']]).boxes ∧
    (parseLevel [['@', ' ', '$']]).boxes.card = 1 ∧
    (applyMove (parseLevel [['@', ' ', '$']]) Move.R).boxes.card = 1 := by
  refine ⟨rfl, rfl, by decide, by decide, by decide⟩

/-- C8 as amended: an unmatched push inserts a phantom box at the cell
two steps out, so the count grows by one provided that cell is itself
box-free; in general a push preserves the box count exactly when
either the destination holds a box and the two-steps cell does not, or
the destination is free and the two-steps cell holds a box. -/
theorem applyMove_push_boxcount (s : BoardState) (p : Pos) (m : Move)
    (hp : s.player = some p) (hpush : isPush m = true) :
    (stepPos p (DELTA m) ∉ s.boxes →
      stepPos (stepPos p (DELTA m)) (DELTA m) ∉ s.boxes →
      (applyMove s m).boxes.card = s.boxes.card + 1) ∧
    ((applyMove s m).boxes.card = s.boxes.card ↔
      (stepPos p (DELTA m) ∈ s.boxes ↔
        stepPos (stepPos p (DELTA m)) (DELTA m) ∉ s.boxes)) := by
  have hboxes : (applyMove s m).boxes =
      insert (stepPos (stepPos p (DELTA m)) (DELTA m))
        (s.boxes.erase (stepPos p (DELTA m))) := by
    simp [applyMove, hp, hpush]
  set np := stepPos p (DELTA m) with hnp
  set bt := stepPos np (DELTA m) with hbt
  have hne : bt ≠ np := stepPos_ne np m
  by_cases h1 : np ∈ s.boxes <;> by_cases h2 : bt ∈ s.boxes
  · have hmem : bt ∈ s.boxes.erase np := Finset.mem_erase.mpr ⟨hne, h2⟩
    have : (applyMove s m).boxes = s.boxes.erase np := by
      rw [hboxes, Finset.insert_eq_self.mpr hmem]
    rw [this, Finset.card_erase_of_mem h1]
    have hpos : 0 < s.boxes.card := Finset.card_pos.mpr ⟨np, h1⟩
    constructor
    · intro hc; exact absurd h1 hc
    · constructor
      · intro heq; omega
      · intro hiff; exact absurd h2 (hiff.mp h1)
  · have hmem : bt ∉ s.boxes.erase np := fun hc => h2 (Finset.mem_erase.mp hc).2
    have : (applyMove s m).boxes.card = (s.boxes.erase np).card + 1 := by
      rw [hboxes, Finset.card_insert_of_not_mem hmem]
    rw [this, Finset.card_erase_of_mem h1]
    have hpos : 0 < s.boxes.card := Finset.card_pos.mpr ⟨np, h1⟩
    constructor
    · intro hc; exact absurd h1 hc
    · simp only [h1, h2]
      constructor
      · intro _; simp
      · intro _; omega
  · have herase : s.boxes.erase np = s.boxes := Finset.erase_eq_of_not_mem h1
    have : (applyMove s m).boxes = s.boxes := by
      rw [hboxes, herase, Finset.insert_eq_self.mpr h2]
    rw [this]
    constructor
    · intro _ hc; exact absurd h2 hc
    · simp [h1, h2]
  · have herase : s.boxes.erase np = s.boxes := Finset.erase_eq_of_not_mem h1
    have : (applyMove s m).boxes.card = s.boxes.card + 1 := by
      rw [hboxes, herase, Finset.card_insert_of_not_mem h2]
    rw [this]
    constructor
    · intro _ _; rfl
    · simp [h1, h2]

/-- Witness for the amended C8: pushing right on `@  ` (no boxes at
all) inserts a phantom box, raising the count from 0 to 1. -/
theorem applyMove_push_boxcount_witness :
    (parseLevel [['@', ' ', ' ']]).player = some (0, 0) ∧
    isPush Move.R = true ∧
    (applyMove (parseLevel [['@', ' ', ' ']]) Move.R).boxes.card =
      (parseLevel [['@', ' ', ' ']]).boxes.card + 1 := by
  have h := applyMove_push_boxcount (parseLevel [['@', ' ', ' ']]) (0, 0)
    Move.R rfl rfl
  exact ⟨rfl, rfl, h.1 (by decide) (by decide)⟩

/-! ### Characterising the parse loop -/

lemma getLastQ_cons {α : Type} (x : α) (l : List α) :
    (x :: l).getLast? = l.getLast?.or (some x) := by
  cases l with
  | nil => rfl
  | cons y l2 =>
    rw [List.getLast?_cons_cons]
    cases h : (y :: l2).getLast? with
    | none => rw [List.getLast?_eq_none_iff] at h; simp at h
    | some a => rfl

lemma getLastQ_append {α : Type} (a b : List α) :
    (a ++ b).getLast? = b.getLast?.or a.getLast? := by
  induction a with
  | nil => simp
  | cons x a ih =>
    rw [List.cons_append, getLastQ_cons, ih, getLastQ_cons, Option.or_assoc]

lemma getLastQ_all_eq {α : Type} (l : List α) (a : α) (hne : l ≠ [])
    (hall : ∀ y ∈ l, y = a) : l.getLast? = some a := by
  induction l with
  | nil => exact absurd rfl hne
  | cons x rest ih =>
    rw [getLastQ_cons]
    cases hr : rest with
    | nil => simp [hall x (by simp)]
    | cons z zs =>
      rw [← hr, ih (by simp [hr]) (fun y hy => hall y (by simp [hy]))]
      rfl

lemma parseChar_walls (acc : ParseAcc) (pos : Pos) (ch : Char) (x : Pos) :
    x ∈ (parseChar acc pos ch).walls ↔
      x ∈ acc.walls ∨ (isWallChar ch ∧ x = pos) := by
  unfold parseChar isWallChar
  split_ifs <;> simp_all [Finset.mem_insert, or_comm]

lemma parseChar_goals (acc : ParseAcc) (pos : Pos) (ch : Char) (x : Pos) :
    x ∈ (parseChar acc pos ch).goals ↔
      x ∈ acc.goals ∨ (isGoalChar ch ∧ x = pos) := by
  unfold parseChar isGoalChar
  split_ifs <;> simp_all [Finset.mem_insert, or_comm]

lemma parseChar_boxes (acc : ParseAcc) (pos : Pos) (ch : Char) (x : Pos) :
    x ∈ (parseChar acc pos ch).boxes ↔
      x ∈ acc.boxes ∨ (isBoxChar ch ∧ x = pos) := by
  unfold parseChar isBoxChar
  split_ifs <;> simp_all [Finset.mem_insert, or_comm]

lemma parseChar_player (acc : ParseAcc) (pos : Pos) (ch : Char) :
    (parseChar acc pos ch).player =
      if isPlayerChar ch then some pos else acc.player := by
  unfold parseChar isPlayerChar
  split_ifs <;> simp_all

/-- Shifting a row-indexed existential across a cons cell. -/
lemma exists_cell_cons (P : Char → Prop) (r c : ℤ) (x : Pos) (ch : Char)
    (rest : List Char) :
    (∃ j : ℕ, ∃ c2, (ch :: rest).get? j = some c2 ∧ P c2 ∧ x = (r, c + (j : ℤ))) ↔
      ((P ch ∧ x = (r, c)) ∨
        ∃ j : ℕ, ∃ c2, rest.get? j = some c2 ∧ P c2 ∧ x = (r, (c + 1) + (j : ℤ))) := by
  constructor
  · rintro ⟨j, c2, hget, hP, hx⟩
    cases j with
    | zero =>
      left
      simp only [List.get?_cons_zero, Option.some.injEq] at hget
      subst hget
      exact ⟨hP, by simpa using hx⟩
    | succ j =>
      right
      refine ⟨j, c2, by simpa using hget, hP, ?_⟩
      rw [hx]
      simp only [Prod.mk.injEq, true_and]
      push_cast
      ring
  · rintro (⟨hP, hx⟩ | ⟨j, c2, hget, hP, hx⟩)
    · exact ⟨0, ch, rfl, hP, by simpa using hx⟩
    · refine ⟨j + 1, c2, by simpa using hget, hP, ?_⟩
      rw [hx]
      simp only [Prod.mk.injEq, true_and]
      push_cast
      ring

/-- Full characterisation of the inner parse loop over one row. -/
lemma parseCols_spec (r : ℤ) (row : List Char) :
    ∀ (acc : ParseAcc) (c : ℤ),
    (∀ x, x ∈ (parseCols acc r c row).walls ↔
      x ∈ acc.walls ∨ ∃ j : ℕ, ∃ c2, row.get? j = some c2 ∧ isWallChar c2 ∧
        x = (r, c + (j : ℤ))) ∧
    (∀ x, x ∈ (parseCols acc r c row).goals ↔
      x ∈ acc.goals ∨ ∃ j : ℕ, ∃ c2, row.get? j = some c2 ∧ isGoalChar c2 ∧
        x = (r, c + (j : ℤ))) ∧
    (∀ x, x ∈ (parseCols acc r c row).boxes ↔
      x ∈ acc.boxes ∨ ∃ j : ℕ, ∃ c2, row.get? j = some c2 ∧ isBoxChar c2 ∧
        x = (r, c + (j : ℤ))) ∧
    (parseCols acc r c row).player =
      ((playerCellsCols r c row).getLast?).or acc.player := by
  induction row with
  | nil =>
    intro acc c
    refine ⟨fun x => ?_, fun x => ?_, fun x => ?_, ?_⟩ <;>
      simp [parseCols, playerCellsCols]
  | cons ch rest ih =>
    intro acc c
    have step : parseCols acc r c (ch :: rest) =
        parseCols (parseChar acc (r, c) ch) r (c + 1) rest := rfl
    obtain ⟨ihw, ihg, ihb, ihp⟩ := ih (parseChar acc (r, c) ch) (c + 1)
    refine ⟨fun x => ?_, fun x => ?_, fun x => ?_, ?_⟩
    · rw [step, ihw x, parseChar_walls, exists_cell_cons isWallChar r c x ch rest]
      tauto
    · rw [step, ihg x, parseChar_goals, exists_cell_cons isGoalChar r c x ch rest]
      tauto
    · rw [step, ihb x, parseChar_boxes, exists_cell_cons isBoxChar r c x ch rest]
      tauto
    · rw [step, ihp, parseChar_player,
        show playerCellsCols r c (ch :: rest) =
          (if isPlayerChar ch then [(r, c)] else []) ++
            playerCellsCols r (c + 1) rest from rfl,
        getLastQ_append]
      split_ifs with h <;> simp [Option.or_assoc]

/-- Shifting a grid-indexed existential across a cons row. -/
lemma exists_charAt_cons (P : Char → Prop) (r : ℤ) (x : Pos)
    (row : List Char) (rest : List (List Char)) :
    (∃ i j : ℕ, ∃ c2, charAt (row :: rest) i j = some c2 ∧ P c2 ∧
        x = (r + (i : ℤ), (j : ℤ))) ↔
      ((∃ j : ℕ, ∃ c2, row.get? j = some c2 ∧ P c2 ∧ x = (r, (j : ℤ))) ∨
        ∃ i j : ℕ, ∃ c2, charAt rest i j = some c2 ∧ P c2 ∧
          x = ((r + 1) + (i : ℤ), (j : ℤ))) := by
  constructor
  · rintro ⟨i, j, c2, hget, hP, hx⟩
    cases i with
    | zero =>
      left
      exact ⟨j, c2, by simpa [charAt] using hget, hP, by simpa using hx⟩
    | succ i =>
      right
      refine ⟨i, j, c2, by simpa [charAt] using hget, hP, ?_⟩
      rw [hx]
      simp only [Prod.mk.injEq, and_true]
      push_cast
      ring
  · rintro (⟨j, c2, hget, hP, hx⟩ | ⟨i, j, c2, hget, hP, hx⟩)
    · exact ⟨0, j, c2, by simpa [charAt] using hget, hP, by simpa using hx⟩
    · refine ⟨i + 1, j, c2, by simpa [charAt] using hget, hP, ?_⟩
      rw [hx]
      simp only [Prod.mk.injEq, and_true]
      push_cast
      ring

/-- Full characterisation of the outer parse loop. -/
lemma parseRows_spec (rows : List (List Char)) :
    ∀ (acc : ParseAcc) (r : ℤ),
    (∀ x, x ∈ (parseRows acc r rows).walls ↔
      x ∈ acc.walls ∨ ∃ i j : ℕ, ∃ c2, charAt rows i j = some c2 ∧
        isWallChar c2 ∧ x = (r + (i : ℤ), (j : ℤ))) ∧
    (∀ x, x ∈ (parseRows acc r rows).goals ↔
      x ∈ acc.goals ∨ ∃ i j : ℕ, ∃ c2, charAt rows i j = some c2 ∧
        isGoalChar c2 ∧ x = (r + (i : ℤ), (j : ℤ))) ∧
    (∀ x, x ∈ (parseRows acc r rows).boxes ↔
      x ∈ acc.boxes ∨ ∃ i j : ℕ, ∃ c2, charAt rows i j = some c2 ∧
        isBoxChar c2 ∧ x = (r + (i : ℤ), (j : ℤ))) ∧
    (parseRows acc r rows).player =
      ((playerCellsRows r rows).getLast?).or acc.player := by
  induction rows with
  | nil =>
    intro acc r
    refine ⟨fun x => ?_, fun x => ?_, fun x => ?_, ?_⟩ <;>
      simp [parseRows, playerCellsRows, charAt]
  | cons row rest ih =>
    intro acc r
    have step : parseRows acc r (row :: rest) =
        parseRows (parseCols acc r 0 row) (r + 1) rest := rfl
    obtain ⟨ihw, ihg, ihb, ihp⟩ := ih (parseCols acc r 0 row) (r + 1)
    obtain ⟨colw, colg, colb, colp⟩ := parseCols_spec r row acc 0
    refine ⟨fun x => ?_, fun x => ?_, fun x => ?_, ?_⟩
    · rw [step, ihw x, colw x, exists_charAt_cons isWallChar r x row rest]
      simp only [zero_add]
      exact or_assoc
    · rw [step, ihg x, colg x, exists_charAt_cons isGoalChar r x row rest]
      simp only [zero_add]
      exact or_assoc
    · rw [step, ihb x, colb x, exists_charAt_cons isBoxChar r x row rest]
      simp only [zero_add]
      exact or_assoc
    · rw [step, ihp, colp,
        show playerCellsRows r (row :: rest) =
          playerCellsCols r 0 row ++ playerCellsRows (r + 1) rest from rfl,
        getLastQ_append, Option.or_assoc]

lemma parseLevel_walls (lines : List (List Char)) (x : Pos) :
    x ∈ (parseLevel lines).walls ↔
      ∃ i j : ℕ, ∃ c2, charAt lines i j = some c2 ∧ isWallChar c2 ∧
        x = ((i : ℤ), (j : ℤ)) := by
  have h := (parseRows_spec lines ⟨∅, ∅, ∅, none⟩ 0).1 x
  simpa [parseLevel] using h

lemma parseLevel_goals (lines : List (List Char)) (x : Pos) :
    x ∈ (parseLevel lines).goals ↔
      ∃ i j : ℕ, ∃ c2, charAt lines i j = some c2 ∧ isGoalChar c2 ∧
        x = ((i : ℤ), (j : ℤ)) := by
  have h := (parseRows_spec lines ⟨∅, ∅, ∅, none⟩ 0).2.1 x
  simpa [parseLevel] using h

lemma parseLevel_boxes (lines : List (List Char)) (x : Pos) :
    x ∈ (parseLevel lines).boxes ↔
      ∃ i j : ℕ, ∃ c2, charAt lines i j = some c2 ∧ isBoxChar c2 ∧
        x = ((i : ℤ), (j : ℤ)) := by
  have h := (parseRows_spec lines ⟨∅, ∅, ∅, none⟩ 0).2.2.1 x
  simpa [parseLevel] using h

lemma parseLevel_player (lines : List (List Char)) :
    (parseLevel lines).player = (playerCellsRows 0 lines).getLast? := by
  have h := (parseRows_spec lines ⟨∅, ∅, ∅, none⟩ 0).2.2.2
  simpa [parseLevel] using h

/-- Membership in the player-cell list of one row. -/
lemma playerCellsCols_mem (r : ℤ) (row : List Char) :
    ∀ (c : ℤ) (x : Pos), x ∈ playerCellsCols r c row ↔
      ∃ j : ℕ, ∃ c2, row.get? j = some c2 ∧ isPlayerChar c2 ∧
        x = (r, c + (j : ℤ)) := by
  induction row with
  | nil => intro c x; simp [playerCellsCols]
  | cons ch rest ih =>
    intro c x
    rw [show playerCellsCols r c (ch :: rest) =
      (if isPlayerChar ch then [(r, c)] else []) ++ playerCellsCols r (c + 1) rest from rfl]
    rw [List.mem_append, ih (c + 1) x,
      exists_cell_cons isPlayerChar r c x ch rest]
    split_ifs with h <;> simp [h] <;> tauto

/-- Membership in the player-cell list of the whole text. -/
lemma playerCellsRows_mem (rows : List (List Char)) :
    ∀ (r : ℤ) (x : Pos), x ∈ playerCellsRows r rows ↔
      ∃ i j : ℕ, ∃ c2, charAt rows i j = some c2 ∧ isPlayerChar c2 ∧
        x = (r + (i : ℤ), (j : ℤ)) := by
  induction rows with
  | nil => intro r x; simp [playerCellsRows, charAt]
  | cons row rest ih =>
    intro r x
    rw [show playerCellsRows r (row :: rest) =
      playerCellsCols r 0 row ++ playerCellsRows (r + 1) rest from rfl]
    rw [List.mem_append, ih (r + 1) x, playerCellsCols_mem r row 0 x,
      exists_charAt_cons isPlayerChar r x row rest]
    simp only [zero_add]

lemma getLastQ_mem {α : Type} (l : List α) (a : α) (h : l.getLast? = some a) :
    a ∈ l := by
  induction l with
  | nil => simp at h
  | cons x xs ih =>
    rw [getLastQ_cons] at h
    cases hx : xs.getLast? with
    | none => rw [hx] at h; simp at h; simp [h]
    | some b =>
      rw [hx] at h
      simp only [Option.or_some, Option.some.injEq] at h
      subst h
      exact List.mem_cons_of_mem x (ih hx)

lemma charAt_some (lines : List (List Char)) (i j : ℕ) (c : Char)
    (h : charAt lines i j = some c) :
    ∃ row, lines.get? i = some row ∧ row.get? j = some c := by
  cases hr : lines.get? i with
  | none => unfold charAt at h; rw [hr] at h; simp at h
  | some row =>
    refine ⟨row, rfl, ?_⟩
    unfold charAt at h
    rw [hr] at h
    simpa using h

lemma maxLineLen_ge (lines : List (List Char)) (row : List Char)
    (h : row ∈ lines) : row.length ≤ maxLineLen lines := by
  induction lines with
  | nil => simp at h
  | cons r0 rest ih =>
    have hfold : maxLineLen (r0 :: rest) = max r0.length (maxLineLen rest) := rfl
    rcases List.mem_cons.mp h with h0 | h0
    · rw [hfold, h0]; exact le_max_left _ _
    · exact le_trans (ih h0) (hfold ▸ le_max_right _ _)

lemma charAt_inBounds (lines : List (List Char)) (i j : ℕ) (c : Char)
    (h : charAt lines i j = some c) :
    inBoundsP (parseLevel lines) ((i : ℤ), (j : ℤ)) := by
  obtain ⟨row, hrow, hc⟩ := charAt_some lines i j c h
  have hi : i < lines.length := by
    rw [List.get?_eq_some] at hrow; exact hrow.choose
  have hj : j < row.length := by
    rw [List.get?_eq_some] at hc; exact hc.choose
  have hw : row.length ≤ maxLineLen lines :=
    maxLineLen_ge lines row (List.get?_mem hrow)
  refine ⟨by positivity, ?_, by positivity, ?_⟩ <;>
    simp only [parseLevel] <;> [exact_mod_cast hi; exact_mod_cast lt_of_lt_of_le hj hw]

/-- C6: `parseLevel` builds a state whose walls are disjoint from its
goals, boxes and player cell, and whose goals, boxes and player all lie
in bounds (hence on floor: in-bounds non-wall cells). -/
theorem parseLevel_invariants (lines : List (List Char)) :
    Disjoint (parseLevel lines).walls (parseLevel lines).goals ∧
    Disjoint (parseLevel lines).walls (parseLevel lines).boxes ∧
    (∀ p, (parseLevel lines).player = some p → p ∉ (parseLevel lines).walls) ∧
    (∀ x ∈ (parseLevel lines).goals, inBoundsP (parseLevel lines) x) ∧
    (∀ x ∈ (parseLevel lines).boxes, inBoundsP (parseLevel lines) x) ∧
    (∀ p, (parseLevel lines).player = some p →
      inBoundsP (parseLevel lines) p) := by
  have key : ∀ (x : Pos) (c c2 : Char),
      (∃ i j : ℕ, ∃ d, charAt lines i j = some d ∧ d = c ∧ x = ((i : ℤ), (j : ℤ))) →
      (∃ i j : ℕ, ∃ d, charAt lines i j = some d ∧ d = c2 ∧ x = ((i : ℤ), (j : ℤ))) →
      c = c2 := by
    rintro x c c2 ⟨i, j, d, hd, rfl, hx⟩ ⟨i2, j2, d2, hd2, rfl, hx2⟩
    rw [hx] at hx2
    simp only [Prod.mk.injEq, Int.natCast_inj] at hx2
    rw [← hx2.1, ← hx2.2] at hd2
    rw [hd] at hd2
    exact (Option.some.injEq _ _ ▸ hd2)
  refine ⟨?_, ?_, ?_, ?_, ?_, ?_⟩
  · rw [Finset.disjoint_left]
    intro a ha hg
    rw [parseLevel_walls] at ha
    rw [parseLevel_goals] at hg
    obtain ⟨i, j, d, hd, hdw, hx⟩ := ha
    obtain ⟨i2, j2, d2, hd2, hdg, hx2⟩ := hg
    rcases hdg with h1 | h1 | h1 <;>
      [have := key a d d2 ⟨i, j, d, hd, rfl, hx⟩ ⟨i2, j2, d2, hd2, rfl, hx2⟩;
       have := key a d d2 ⟨i, j, d, hd, rfl, hx⟩ ⟨i2, j2, d2, hd2, rfl, hx2⟩;
       have := key a d d2 ⟨i, j, d, hd, rfl, hx⟩ ⟨i2, j2, d2, hd2, rfl, hx2⟩] <;>
      rw [hdw, h1] at this <;> simp at this
  · rw [Finset.disjoint_left]
    intro a ha hb
    rw [parseLevel_walls] at ha
    rw [parseLevel_boxes] at hb
    obtain ⟨i, j, d, hd, hdw, hx⟩ := ha
    obtain ⟨i2, j2, d2, hd2, hdb, hx2⟩ := hb
    have := key a d d2 ⟨i, j, d, hd, rfl, hx⟩ ⟨i2, j2, d2, hd2, rfl, hx2⟩
    rcases hdb with h1 | h1 <;> rw [hdw, h1] at this <;> simp at this
  · intro p hp hw
    rw [parseLevel_player] at hp
    have hmem := getLastQ_mem _ _ hp
    rw [playerCellsRows_mem] at hmem
    obtain ⟨i, j, d, hd, hdp, hx⟩ := hmem
    rw [parseLevel_walls] at hw
    obtain ⟨i2, j2, d2, hd2, hdw, hx2⟩ := hw
    simp only [zero_add] at hx
    have := key p d d2 ⟨i, j, d, hd, rfl, hx⟩ ⟨i2, j2, d2, hd2, rfl, hx2⟩
    rcases hdp with h1 | h1 <;> rw [hdw, h1] at this <;> simp at this
  · intro x hx
    rw [parseLevel_goals] at hx
    obtain ⟨i, j, d, hd, _, rfl⟩ := hx
    exact charAt_inBounds lines i j d hd
  · intro x hx
    rw [parseLevel_boxes] at hx
    obtain ⟨i, j, d, hd, _, rfl⟩ := hx
    exact charAt_inBounds lines i j d hd
  · intro p hp
    rw [parseLevel_player] at hp
    have hmem := getLastQ_mem _ _ hp
    rw [playerCellsRows_mem] at hmem
    obtain ⟨i, j, d, hd, _, hx⟩ := hmem
    simp only [zero_add] at hx
    subst hx
    exact charAt_inBounds lines i j d hd

/-- C6 witness at a concrete level. -/
theorem parseLevel_invariants_witness :
    Disjoint (parseLevel [['#', '@', '$', '.']]).walls
      (parseLevel [['#', '@', '$', '.']]).goals ∧
    (∀ p, (parseLevel [['#', '@', '$', '.']]).player = some p →
      p ∉ (parseLevel [['#', '@', '$', '.']]).walls) := by
  have h := parseLevel_invariants [['#', '@', '$', '.']]
  exact ⟨h.1, h.2.2.1⟩

lemma playerCount_of_empty (lines : List (List Char)) (h : gridEmpty lines) :
    playerCount lines = 0 := by
  unfold playerCount
  apply List.sum_eq_zero
  intro x hx
  simp only [List.mem_map] at hx
  obtain ⟨row, hr, rfl⟩ := hx
  rw [h row hr]
  simp

/-- C1: the spec-modelled solver parser rejects every level text that
breaks a well-formedness rule (player count ≠ 1, box/goal count
mismatch, empty grid) with a `MalformedLevel` reason naming a violated
rule, returning no level object; a level text with two players is
rejected naming the player rule. -/
theorem parse_level_rejects_malformed (lines : List (List Char)) :
    ((playerCount lines ≠ 1 ∨ boxCount lines ≠ goalCount lines ∨
        gridEmpty lines) →
      ∃ rsn, parse_level lines = .error rsn ∧ violating rsn lines) ∧
    (playerCount lines = 2 → parse_level lines = .error .player) := by
  unfold parse_level
  split_ifs with h1 h2 h3 h4
  · exact ⟨fun _ => ⟨.emptyBoard, rfl, h1⟩,
      fun hp => by rw [playerCount_of_empty lines h1] at hp; simp at hp⟩
  · exact ⟨fun _ => ⟨.player, rfl, h2⟩, fun _ => rfl⟩
  · refine ⟨fun _ => ⟨.noBoxes, rfl, h3⟩, fun hp => ?_⟩
    push_neg at h2
    rw [h2] at hp
    simp at hp
  · refine ⟨fun _ => ⟨.boxGoalMismatch, rfl, h4⟩, fun hp => ?_⟩
    push_neg at h2
    rw [h2] at hp
    simp at hp
  · push_neg at h2 h4
    refine ⟨fun hviol => ?_, fun hp => ?_⟩
    · rcases hviol with hv | hv | hv
      · exact absurd h2 hv
      · exact absurd h4 hv
      · exact absurd hv h1
    · rw [h2] at hp; simp at hp

/-- C1 witness: a two-player level is rejected naming the player rule. -/
theorem parse_level_rejects_malformed_witness :
    playerCount [['@', '@']] = 2 ∧
    parse_level [['@', '@']] = .error .player :=
  ⟨by decide, (parse_level_rejects_malformed [['@', '@']]).2 (by decide)⟩

lemma charAt_editor (g : EditorGrid) (i j : ℕ) :
    charAt (editorGridToText g) i j = (cellAt g i j).map charOfCell := by
  unfold charAt cellAt editorGridToText
  rw [List.get?_map]
  cases hr : g.get? i with
  | none => rfl
  | some row => simp [List.get?_map]

lemma charOfCell_wall (cell : ECell) :
    isWallChar (charOfCell cell) ↔ cell.base = EBase.wall := by
  rcases cell with ⟨b, e⟩; cases b <;> cases e <;> decide

lemma charOfCell_goal (cell : ECell) :
    isGoalChar (charOfCell cell) ↔ cell.base = EBase.goal := by
  rcases cell with ⟨b, e⟩; cases b <;> cases e <;> decide

lemma charOfCell_box (cell : ECell) :
    isBoxChar (charOfCell cell) ↔
      (cell.entity = EEntity.box ∧ cell.base ≠ EBase.wall) := by
  rcases cell with ⟨b, e⟩; cases b <;> cases e <;> decide

lemma charOfCell_playerChar (cell : ECell) :
    isPlayerChar (charOfCell cell) ↔
      (cell.entity = EEntity.player ∧ cell.base ≠ EBase.wall) := by
  rcases cell with ⟨b, e⟩; cases b <;> cases e <;> decide

/-- C10: on an editor grid where no wall cell carries a box or player
entity and at most one cell carries the player entity (both maintained
by every editing tool), parsing the text of `editorGridToText` recovers
the grid: walls are the wall-base cells, goals the goal-base cells,
boxes the box-entity cells, and the player is the unique player-entity
cell, or absent when the grid has none. -/
theorem editor_grid_roundtrip (g : EditorGrid)
    (hwall : ∀ i j cell, cellAt g i j = some cell →
      cell.base = EBase.wall → cell.entity = EEntity.none)
    (huniq : ∀ i j i2 j2 cell cell2, cellAt g i j = some cell →
      cell.entity = EEntity.player → cellAt g i2 j2 = some cell2 →
      cell2.entity = EEntity.player → i = i2 ∧ j = j2) :
    (∀ i j : ℕ, ((i : ℤ), (j : ℤ)) ∈ (parseLevel (editorGridToText g)).walls ↔
      ∃ cell, cellAt g i j = some cell ∧ cell.base = EBase.wall) ∧
    (∀ i j : ℕ, ((i : ℤ), (j : ℤ)) ∈ (parseLevel (editorGridToText g)).goals ↔
      ∃ cell, cellAt g i j = some cell ∧ cell.base = EBase.goal) ∧
    (∀ i j : ℕ, ((i : ℤ), (j : ℤ)) ∈ (parseLevel (editorGridToText g)).boxes ↔
      ∃ cell, cellAt g i j = some cell ∧ cell.entity = EEntity.box) ∧
    (∀ x ∈ (parseLevel (editorGridToText g)).walls ∪
        (parseLevel (editorGridToText g)).goals ∪
        (parseLevel (editorGridToText g)).boxes, 0 ≤ x.1 ∧ 0 ≤ x.2) ∧
    (∀ i j cell, cellAt g i j = some cell → cell.entity = EEntity.player →
      (parseLevel (editorGridToText g)).player = some ((i : ℤ), (j : ℤ))) ∧
    ((∀ i j cell, cellAt g i j = some cell →
        cell.entity ≠ EEntity.player) →
      (parseLevel (editorGridToText g)).player = none) := by
  have hchar : ∀ (i j : ℕ) (d : Char),
      charAt (editorGridToText g) i j = some d ↔
        ∃ cell, cellAt g i j = some cell ∧ charOfCell cell = d := by
    intro i j d
    rw [charAt_editor]
    cases hc : cellAt g i j <;> simp [hc]
  refine ⟨?_, ?_, ?_, ?_, ?_, ?_⟩
  · intro i j
    rw [parseLevel_walls]
    constructor
    · rintro ⟨i2, j2, d, hd, hdw, hx⟩
      simp only [Prod.mk.injEq, Int.natCast_inj] at hx
      obtain ⟨rfl, rfl⟩ := hx
      obtain ⟨cell, hc, rfl⟩ := (hchar _ _ d).mp hd
      exact ⟨cell, hc, (charOfCell_wall cell).mp hdw⟩
    · rintro ⟨cell, hc, hb⟩
      exact ⟨i, j, charOfCell cell, (hchar i j _).mpr ⟨cell, hc, rfl⟩,
        (charOfCell_wall cell).mpr hb, rfl⟩
  · intro i j
    rw [parseLevel_goals]
    constructor
    · rintro ⟨i2, j2, d, hd, hdg, hx⟩
      simp only [Prod.mk.injEq, Int.natCast_inj] at hx
      obtain ⟨rfl, rfl⟩ := hx
      obtain ⟨cell, hc, rfl⟩ := (hchar _ _ d).mp hd
      exact ⟨cell, hc, (charOfCell_goal cell).mp hdg⟩
    · rintro ⟨cell, hc, hb⟩
      exact ⟨i, j, charOfCell cell, (hchar i j _).mpr ⟨cell, hc, rfl⟩,
        (charOfCell_goal cell).mpr hb, rfl⟩
  · intro i j
    rw [parseLevel_boxes]
    constructor
    · rintro ⟨i2, j2, d, hd, hdb, hx⟩
      simp only [Prod.mk.injEq, Int.natCast_inj] at hx
      obtain ⟨rfl, rfl⟩ := hx
      obtain ⟨cell, hc, rfl⟩ := (hchar _ _ d).mp hd
      exact ⟨cell, hc, ((charOfCell_box cell).mp hdb).1⟩
    · rintro ⟨cell, hc, he⟩
      have hnw : cell.base ≠ EBase.wall := by
        intro hb
        have := hwall i j cell hc hb
        rw [he] at this
        cases this
      exact ⟨i, j, charOfCell cell, (hchar i j _).mpr ⟨cell, hc, rfl⟩,
        (charOfCell_box cell).mpr ⟨he, hnw⟩, rfl⟩
  · intro x hx
    simp only [Finset.mem_union] at hx
    rcases hx with (hx | hx) | hx <;>
      [rw [parseLevel_walls] at hx; rw [parseLevel_goals] at hx;
       rw [parseLevel_boxes] at hx] <;>
      · obtain ⟨i, j, d, _, _, rfl⟩ := hx
        exact ⟨Int.natCast_nonneg i, Int.natCast_nonneg j⟩
  · intro i j cell hc he
    rw [parseLevel_player]
    have hnw : cell.base ≠ EBase.wall := by
      intro hb
      have := hwall i j cell hc hb
      rw [he] at this
      cases this
    have hm : ((i : ℤ), (j : ℤ)) ∈ playerCellsRows 0 (editorGridToText g) := by
      rw [playerCellsRows_mem]
      exact ⟨i, j, charOfCell cell, (hchar i j _).mpr ⟨cell, hc, rfl⟩,
        (charOfCell_playerChar cell).mpr ⟨he, hnw⟩, by simp⟩
    refine getLastQ_all_eq _ _ (List.ne_nil_of_mem hm) ?_
    intro y hy
    rw [playerCellsRows_mem] at hy
    obtain ⟨i2, j2, d, hd, hdp, hy2⟩ := hy
    obtain ⟨cell2, hc2, rfl⟩ := (hchar i2 j2 d).mp hd
    have he2 := ((charOfCell_playerChar cell2).mp hdp).1
    obtain ⟨rfl, rfl⟩ := (huniq i2 j2 i j cell2 cell hc2 he2 hc he)
    simpa using hy2
  · intro hnone
    rw [parseLevel_player]
    have : playerCellsRows 0 (editorGridToText g) = [] := by
      rw [List.eq_nil_iff_forall_not_mem]
      intro y hy
      rw [playerCellsRows_mem] at hy
      obtain ⟨i, j, d, hd, hdp, _⟩ := hy
      obtain ⟨cell, hc, rfl⟩ := (hchar i j d).mp hd
      exact hnone i j cell hc ((charOfCell_playerChar cell).mp hdp).1
    rw [this]
    rfl

/-- C10 witness on a concrete 2x2 grid: border-free floor with a
player, a box on a goal, and a wall. -/
theorem editor_grid_roundtrip_witness :
    ((0 : ℤ), (0 : ℤ)) ∈
      (parseLevel (editorGridToText
        [[⟨EBase.wall, EEntity.none⟩, ⟨EBase.floor, EEntity.player⟩],
         [⟨EBase.goal, EEntity.box⟩, ⟨EBase.floor, EEntity.none⟩]])).walls ∧
    (parseLevel (editorGridToText
        [[⟨EBase.wall, EEntity.none⟩, ⟨EBase.floor, EEntity.player⟩],
         [⟨EBase.goal, EEntity.box⟩, ⟨EBase.floor, EEntity.none⟩]])).player =
      some ((0 : ℤ), (1 : ℤ)) := by
  have hwall : ∀ i j (cell : ECell),
      cellAt [[⟨EBase.wall, EEntity.none⟩, ⟨EBase.floor, EEntity.player⟩],
        [⟨EBase.goal, EEntity.box⟩, ⟨EBase.floor, EEntity.none⟩]] i j =
        some cell →
      cell.base = EBase.wall → cell.entity = EEntity.none := by
    intro i j cell hc hb
    rcases i with _ | _ | i <;> rcases j with _ | _ | j <;>
      simp [cellAt, List.get?] at hc <;> cases hc <;> simp_all
  have hkey : ∀ i j (cell : ECell),
      cellAt [[⟨EBase.wall, EEntity.none⟩, ⟨EBase.floor, EEntity.player⟩],
        [⟨EBase.goal, EEntity.box⟩, ⟨EBase.floor, EEntity.none⟩]] i j =
        some cell →
      cell.entity = EEntity.player → i = 0 ∧ j = 1 := by
    intro i j cell hc he
    rcases i with _ | _ | i <;> rcases j with _ | _ | j <;>
      simp [cellAt, List.get?] at hc <;> cases hc <;> simp_all
  have h := editor_grid_roundtrip
    [[⟨EBase.wall, EEntity.none⟩, ⟨EBase.floor, EEntity.player⟩],
     [⟨EBase.goal, EEntity.box⟩, ⟨EBase.floor, EEntity.none⟩]]
    hwall
    (fun i j i2 j2 cell cell2 hc he hc2 he2 => by
      obtain ⟨h1, h2⟩ := hkey i j cell hc he
      obtain ⟨h3, h4⟩ := hkey i2 j2 cell2 hc2 he2
      exact ⟨h1.trans h3.symm, h2.trans h4.symm⟩)
  refine ⟨(h.1 0 0).mpr ⟨⟨EBase.wall, EEntity.none⟩, rfl, rfl⟩, ?_⟩
  exact h.2.2.2.2.1 0 1 ⟨EBase.floor, EEntity.player⟩ rfl rfl

/-! ### Characterising the interior flood fill -/

lemma mem_freeFinset (s : BoardState) (pl : Pos) (n : Pos) :
    n ∈ freeFinset s pl ↔ freeCell s pl n := by
  unfold freeFinset freeCell inBoundsP
  simp only [Finset.mem_filter, Finset.mem_product, Finset.mem_Ico]
  tauto

lemma freeFinset_card (s : BoardState) (pl : Pos) :
    (freeFinset s pl).card ≤ s.height.toNat * s.width.toNat := by
  calc (freeFinset s pl).card
      ≤ ((Finset.Ico (0 : ℤ) s.height) ×ˢ (Finset.Ico (0 : ℤ) s.width)).card :=
        Finset.card_filter_le _ _
    _ = s.height.toNat * s.width.toNat := by
        rw [Finset.card_product, Int.card_Ico, Int.card_Ico, sub_zero, sub_zero]

lemma reachAvoid_free (s : BoardState) (pl : Pos) (m : Pos)
    (h : ReachAvoid s pl m) : freeCell s pl m := by
  cases h <;> assumption

lemma walls_subset_seeds (s : BoardState) (pl : Pos) :
    s.walls ⊆ seeds s pl := by
  intro w hw
  exact Finset.mem_insert_of_mem
    (Finset.mem_union_left _ (Finset.mem_union_left _ hw))

/-- What one `expandStep` fold over any delta list does to the
interior/queue accumulator. -/
lemma expandFold_spec (s : BoardState) (p : Pos) (ds : List Pos) :
    ∀ (I : Finset Pos) (l : List Pos),
    ∃ new : List Pos,
      (ds.foldl (expandStep s p) (I, l)).2 = l ++ new ∧
      (ds.foldl (expandStep s p) (I, l)).1 = I ∪ new.toFinset ∧
      new.Nodup ∧
      (∀ n ∈ new, n ∉ I ∧ inBoundsP s n ∧ n ∉ s.walls ∧
        ∃ d ∈ ds, n = stepPos p d) ∧
      (∀ d ∈ ds, inBoundsP s (stepPos p d) → stepPos p d ∉ s.walls →
        stepPos p d ∈ (ds.foldl (expandStep s p) (I, l)).1) := by
  induction ds with
  | nil =>
    intro I l
    exact ⟨[], by simp, by simp, List.nodup_nil, by simp, by simp⟩
  | cons d ds ih =>
    intro I l
    rw [List.foldl_cons]
    by_cases hc : inBoundsP s (stepPos p d) ∧ stepPos p d ∉ I ∧
        stepPos p d ∉ s.walls
    · have hstep : expandStep s p (I, l) d =
          (insert (stepPos p d) I, l ++ [stepPos p d]) := by
        unfold expandStep
        rw [if_pos hc]
      rw [hstep]
      obtain ⟨new2, h2, h1, hnd, hprops, hcover⟩ :=
        ih (insert (stepPos p d) I) (l ++ [stepPos p d])
      refine ⟨stepPos p d :: new2, ?_, ?_, ?_, ?_, ?_⟩
      · rw [h2, List.append_assoc]
        rfl
      · rw [h1]
        ext y
        simp only [Finset.mem_union, Finset.mem_insert, List.toFinset_cons,
          List.mem_toFinset]
        tauto
      · refine List.Nodup.cons ?_ hnd
        intro hmem
        exact (hprops _ hmem).1 (Finset.mem_insert_self _ _)
      · intro n hn
        rcases List.mem_cons.mp hn with rfl | hn
        · exact ⟨hc.2.1, hc.1, hc.2.2, d, List.mem_cons_self _ _, rfl⟩
        · obtain ⟨hnI, hnB, hnW, d2, hd2, hnd2⟩ := hprops n hn
          exact ⟨fun hmem => hnI (Finset.mem_insert_of_mem hmem), hnB, hnW,
            d2, List.mem_cons_of_mem _ hd2, hnd2⟩
      · intro d2 hd2 hB hW
        rcases List.mem_cons.mp hd2 with rfl | hd2
        · rw [h1]
          exact Finset.mem_union_left _ (Finset.mem_insert_self _ _)
        · exact hcover d2 hd2 hB hW
    · have hstep : expandStep s p (I, l) d = (I, l) := by
        unfold expandStep
        rw [if_neg hc]
      rw [hstep]
      obtain ⟨new2, h2, h1, hnd, hprops, hcover⟩ := ih I l
      refine ⟨new2, h2, h1, hnd, ?_, ?_⟩
      · intro n hn
        obtain ⟨hnI, hnB, hnW, d2, hd2, hnd2⟩ := hprops n hn
        exact ⟨hnI, hnB, hnW, d2, List.mem_cons_of_mem _ hd2, hnd2⟩
      · intro d2 hd2 hB hW
        rcases List.mem_cons.mp hd2 with rfl | hd2
        · have hmem : stepPos p d2 ∈ I := by
            by_contra hnot
            exact hc ⟨hB, hnot, hW⟩
          rw [h1]
          exact Finset.mem_union_left _ hmem
        · exact hcover d2 hd2 hB hW

/-- What `expandCell` does: it adds a duplicate-free batch of fresh,
in-bounds, non-wall neighbours of `p` and enqueues exactly them, and
afterwards every in-bounds non-wall neighbour of `p` is in the set. -/
lemma expandCell_spec (s : BoardState) (p : Pos) (I : Finset Pos) :
    ∃ new : List Pos,
      expandCell s p I = (I ∪ new.toFinset, new) ∧
      new.Nodup ∧
      (∀ n ∈ new, n ∉ I ∧ inBoundsP s n ∧ n ∉ s.walls ∧ adjacent p n) ∧
      (∀ d ∈ neighborDeltas, inBoundsP s (stepPos p d) →
        stepPos p d ∉ s.walls → stepPos p d ∈ (expandCell s p I).1) := by
  obtain ⟨new, h2, h1, hnd, hprops, hcover⟩ :=
    expandFold_spec s p neighborDeltas I []
  refine ⟨new, ?_, hnd, ?_, hcover⟩
  · unfold expandCell
    rw [Prod.ext_iff]
    exact ⟨h1, by rw [h2]; rfl⟩
  · intro n hn
    obtain ⟨hnI, hnB, hnW, d, hd, hnd2⟩ := hprops n hn
    exact ⟨hnI, hnB, hnW, d, hd, hnd2⟩

/-- Everything the BFS collects is a seed or reachable through free
cells. -/
lemma bfsAux_sound (s : BoardState) (pl : Pos) :
    ∀ (fuel : ℕ) (q : List Pos) (I : Finset Pos),
    (∀ x ∈ I, x ∈ seeds s pl ∨ ReachAvoid s pl x) →
    (∀ x ∈ q, x = pl ∨ ReachAvoid s pl x) →
    seeds s pl ⊆ I →
    ∀ x ∈ bfsAux s fuel q I, x ∈ seeds s pl ∨ ReachAvoid s pl x := by
  intro fuel
  induction fuel with
  | zero =>
    intro q I hI _ _ x hx
    exact hI x hx
  | succ fuel ih =>
    intro q I hI hq hs x hx
    cases q with
    | nil => exact hI x hx
    | cons p rest =>
      obtain ⟨new, hpair, _, hprops, _⟩ := expandCell_spec s p I
      have hstep : bfsAux s (fuel + 1) (p :: rest) I =
          bfsAux s fuel (rest ++ (expandCell s p I).2)
            (expandCell s p I).1 := rfl
      rw [hstep, hpair] at hx
      have hreach_new : ∀ n ∈ new, ReachAvoid s pl n := by
        intro n hn
        obtain ⟨hnI, hnB, hnW, hadj⟩ := hprops n hn
        have hfree : freeCell s pl n := ⟨hnB, fun hseed => hnI (hs hseed)⟩
        rcases hq p (List.mem_cons_self _ _) with rfl | hr
        · exact ReachAvoid.base n hadj hfree
        · exact ReachAvoid.step p n hr hadj hfree
      refine ih (rest ++ new) (I ∪ new.toFinset) ?_ ?_ ?_ x hx
      · intro y hy
        rcases Finset.mem_union.mp hy with h | h
        · exact hI y h
        · exact Or.inr (hreach_new y (List.mem_toFinset.mp h))
      · intro y hy
        rcases List.mem_append.mp hy with h | h
        · exact hq y (List.mem_cons_of_mem _ h)
        · exact Or.inr (hreach_new y h)
      · exact hs.trans Finset.subset_union_left

/-- With enough fuel the BFS empties its queue, so the collected set
contains its start set and is closed under expansion from every queued
or newly collected cell. -/
lemma bfsAux_complete (s : BoardState) (pl : Pos) :
    ∀ (fuel : ℕ) (q : List Pos) (I : Finset Pos),
    (∀ x ∈ q, x ∈ I) →
    seeds s pl ⊆ I →
    q.length + ((freeFinset s pl) \ I).card ≤ fuel →
    I ⊆ bfsAux s fuel q I ∧
    (∀ p, (p ∈ q ∨ (p ∈ bfsAux s fuel q I ∧ p ∉ I)) →
      ∀ d ∈ neighborDeltas, inBoundsP s (stepPos p d) →
        stepPos p d ∉ s.walls → stepPos p d ∈ bfsAux s fuel q I) := by
  intro fuel
  induction fuel with
  | zero =>
    intro q I hqI _ hfuel
    have hq : q = [] := by
      cases q with
      | nil => rfl
      | cons a as => simp at hfuel
    subst hq
    refine ⟨Finset.Subset.refl _, ?_⟩
    rintro p (hp | ⟨hp1, hp2⟩)
    · simp at hp
    · exact absurd hp1 hp2
  | succ fuel ih =>
    intro q I hqI hs hfuel
    cases q with
    | nil =>
      refine ⟨Finset.Subset.refl _, ?_⟩
      rintro p (hp | ⟨hp1, hp2⟩)
      · simp at hp
      · exact absurd hp1 hp2
    | cons p rest =>
      obtain ⟨new, hpair, hnodup, hprops, hcover⟩ := expandCell_spec s p I
      have hstep : bfsAux s (fuel + 1) (p :: rest) I =
          bfsAux s fuel (rest ++ new) (I ∪ new.toFinset) := by
        show bfsAux s fuel (rest ++ (expandCell s p I).2)
          (expandCell s p I).1 = _
        rw [hpair]
      have hsubnew : new.toFinset ⊆ (freeFinset s pl) \ I := by
        intro n hn
        obtain ⟨hnI, hnB, hnW, _⟩ := hprops n (List.mem_toFinset.mp hn)
        exact Finset.mem_sdiff.mpr
          ⟨(mem_freeFinset s pl n).mpr ⟨hnB, fun c => hnI (hs c)⟩, hnI⟩
      have hsdiff : (freeFinset s pl) \ (I ∪ new.toFinset) =
          ((freeFinset s pl) \ I) \ new.toFinset := by
        ext y
        simp only [Finset.mem_sdiff, Finset.mem_union]
        tauto
      have hlen : new.toFinset.card = new.length :=
        List.toFinset_card_of_nodup hnodup
      have hnle : new.length ≤ ((freeFinset s pl) \ I).card := by
        rw [← hlen]
        exact Finset.card_le_card hsubnew
      have hcard : ((freeFinset s pl) \ (I ∪ new.toFinset)).card =
          ((freeFinset s pl) \ I).card - new.length := by
        rw [hsdiff, Finset.card_sdiff hsubnew, hlen]
      have hfuel2 : (rest ++ new).length +
          ((freeFinset s pl) \ (I ∪ new.toFinset)).card ≤ fuel := by
        rw [List.length_append, hcard]
        simp only [List.length_cons] at hfuel
        omega
      have hqI2 : ∀ x ∈ rest ++ new, x ∈ I ∪ new.toFinset := by
        intro x hx
        rcases List.mem_append.mp hx with h | h
        · exact Finset.mem_union_left _ (hqI x (List.mem_cons_of_mem _ h))
        · exact Finset.mem_union_right _ (List.mem_toFinset.mpr h)
      have hs2 : seeds s pl ⊆ I ∪ new.toFinset :=
        hs.trans Finset.subset_union_left
      obtain ⟨ihsub, ihcover⟩ := ih (rest ++ new) (I ∪ new.toFinset)
        hqI2 hs2 hfuel2
      rw [hstep]
      refine ⟨Finset.subset_union_left.trans ihsub, ?_⟩
      intro p0 hp0 d hd hB hW
      rcases hp0 with hp0 | ⟨hpR, hpnI⟩
      · rcases List.mem_cons.mp hp0 with rfl | hp0
        · have hmem := hcover d hd hB hW
          rw [hpair] at hmem
          exact ihsub hmem
        · exact ihcover p0 (Or.inl (List.mem_append_left _ hp0)) d hd hB hW
      · by_cases hI2 : p0 ∈ I ∪ new.toFinset
        · have hnew : p0 ∈ new := by
            rcases Finset.mem_union.mp hI2 with h | h
            · exact absurd h hpnI
            · exact List.mem_toFinset.mp h
          exact ihcover p0 (Or.inl (List.mem_append_right _ hnew)) d hd hB hW
        · exact ihcover p0 (Or.inr ⟨hpR, hI2⟩) d hd hB hW

/-- C3 as amended: the interior flood fill is blocked by walls and
also by box and goal cells; all box and goal cells (and the player
cell and walls) are seeded into the region unconditionally, and beyond
the seeds a cell belongs to the region exactly when it is reachable
from the player through in-bounds cells that are none of wall, box,
goal or the player cell. -/
theorem computeInterior_characterisation (s : BoardState) (pl : Pos)
    (hpl : s.player = some pl) (x : Pos) :
    x ∈ computeInterior s ↔ x ∈ seeds s pl ∨ ReachAvoid s pl x := by
  have hcomp : computeInterior s =
      bfsAux s (interiorFuel s) [pl] (seeds s pl) := by
    unfold computeInterior
    rw [hpl]
  have hfuel : [pl].length + ((freeFinset s pl) \ (seeds s pl)).card ≤
      interiorFuel s := by
    have h1 : ((freeFinset s pl) \ (seeds s pl)).card ≤
        (freeFinset s pl).card := Finset.card_le_card (Finset.sdiff_subset)
    have h2 := freeFinset_card s pl
    unfold interiorFuel
    simp only [List.length_singleton]
    omega
  obtain ⟨hsub, hcover⟩ := bfsAux_complete s pl (interiorFuel s) [pl]
    (seeds s pl)
    (fun y hy => by
      simp only [List.mem_singleton] at hy
      subst hy
      exact Finset.mem_insert_self _ _)
    (Finset.Subset.refl _) hfuel
  constructor
  · intro hx
    rw [hcomp] at hx
    exact bfsAux_sound s pl (interiorFuel s) [pl] (seeds s pl)
      (fun y hy => Or.inl hy)
      (fun y hy => Or.inl (by simpa using hy))
      (Finset.Subset.refl _) x hx
  · intro hx
    rw [hcomp]
    rcases hx with hx | hx
    · exact hsub hx
    · induction hx with
      | base n hadj hfree =>
        obtain ⟨d, hd, rfl⟩ := hadj
        exact hcover pl (Or.inl (by simp)) d hd hfree.1
          (fun hw => hfree.2 (walls_subset_seeds s pl hw))
      | step m n hm hadj hfree ihm =>
        obtain ⟨d, hd, rfl⟩ := hadj
        have hmfree := reachAvoid_free s pl m hm
        exact hcover m (Or.inr ⟨ihm, hmfree.2⟩) d hd hfree.1
          (fun hw => hfree.2 (walls_subset_seeds s pl hw))

/-- Witness for the amended C3 on a concrete level `@. `: the goal
cell is in the region as a seed, and the cell beyond it is not
reachable because the fill does not expand through the goal. -/
theorem computeInterior_characterisation_witness :
    (parseLevel [['@', '.', ' ']]).player = some (0, 0) ∧
    (((0, 1) : Pos) ∈ computeInterior (parseLevel [['@', '.', ' ']]) ↔
      ((0, 1) : Pos) ∈ seeds (parseLevel [['@', '.', ' ']]) (0, 0) ∨
        ReachAvoid (parseLevel [['@', '.', ' ']]) (0, 0) (0, 1)) :=
  ⟨rfl, computeInterior_characterisation
    (parseLevel [['@', '.', ' ']]) (0, 0) rfl (0, 1)⟩

/-- C3 counterexample: in the level `@. ` the cell `(0,2)` is floor
connected to the player through box-free floor cells (via the goal at
`(0,1)`, ordinary floor by the claim), yet it is not in the computed
region: the fill never expands through the pre-seeded goal cell. -/
theorem computeInterior_claim_cex :
    (parseLevel [['@', '.', ' ']]).player = some (0, 0) ∧
    inBoundsP (parseLevel [['@', '.', ' ']]) (0, 2) ∧
    ((0, 2) : Pos) ∉ (parseLevel [['@', '.', ' ']]).walls ∧
    ReachClaim (parseLevel [['@', '.', ' ']]) (0, 0) (0, 2) ∧
    ((0, 2) : Pos) ∉ computeInterior (parseLevel [['@', '.', ' ']]) := by
  refine ⟨rfl, by decide, by decide, ?_, by decide⟩
  have h1 : ReachClaim (parseLevel [['@', '.', ' ']]) (0, 0) (0, 1) :=
    ReachClaim.base (0, 1) ⟨(0, 1), by decide, by decide⟩
      (by decide) (by decide) (by decide)
  exact ReachClaim.step (0, 1) (0, 2) h1 ⟨(0, 1), by decide, by decide⟩
    (by decide) (by decide) (by decide)

/-! ### General BFS lemmas for the solver's reachability -/

lemma mem_freeFinsetVia (s : BoardState) (S : Finset Pos) (n : Pos) :
    n ∈ freeFinsetVia s S ↔ inBoundsP s n ∧ n ∉ S := by
  unfold freeFinsetVia inBoundsP
  simp only [Finset.mem_filter, Finset.mem_product, Finset.mem_Ico]
  tauto

lemma freeFinsetVia_card (s : BoardState) (S : Finset Pos) :
    (freeFinsetVia s S).card ≤ s.height.toNat * s.width.toNat := by
  calc (freeFinsetVia s S).card
      ≤ ((Finset.Ico (0 : ℤ) s.height) ×ˢ (Finset.Ico (0 : ℤ) s.width)).card :=
        Finset.card_filter_le _ _
    _ = s.height.toNat * s.width.toNat := by
        rw [Finset.card_product, Int.card_Ico, Int.card_Ico, sub_zero, sub_zero]

lemma reachVia_not_mem (s : BoardState) (S : Finset Pos) (pl m : Pos)
    (h : ReachVia s S pl m) : inBoundsP s m ∧ m ∉ S := by
  cases h <;> exact ⟨by assumption, by assumption⟩

lemma bfsAux_sound_via (s : BoardState) (S : Finset Pos) (pl : Pos)
    (hw : s.walls ⊆ S) :
    ∀ (fuel : ℕ) (q : List Pos) (I : Finset Pos),
    (∀ x ∈ I, x ∈ S ∨ ReachVia s S pl x) →
    (∀ x ∈ q, x = pl ∨ ReachVia s S pl x) →
    S ⊆ I →
    ∀ x ∈ bfsAux s fuel q I, x ∈ S ∨ ReachVia s S pl x := by
  intro fuel
  induction fuel with
  | zero =>
    intro q I hI _ _ x hx
    exact hI x hx
  | succ fuel ih =>
    intro q I hI hq hs x hx
    cases q with
    | nil => exact hI x hx
    | cons p rest =>
      obtain ⟨new, hpair, _, hprops, _⟩ := expandCell_spec s p I
      have hstep : bfsAux s (fuel + 1) (p :: rest) I =
          bfsAux s fuel (rest ++ (expandCell s p I).2)
            (expandCell s p I).1 := rfl
      rw [hstep, hpair] at hx
      have hreach_new : ∀ n ∈ new, ReachVia s S pl n := by
        intro n hn
        obtain ⟨hnI, hnB, _, hadj⟩ := hprops n hn
        have hnS : n ∉ S := fun hmem => hnI (hs hmem)
        rcases hq p (List.mem_cons_self _ _) with rfl | hr
        · exact ReachVia.base n hadj hnB hnS
        · exact ReachVia.step p n hr hadj hnB hnS
      refine ih (rest ++ new) (I ∪ new.toFinset) ?_ ?_ ?_ x hx
      · intro y hy
        rcases Finset.mem_union.mp hy with h | h
        · exact hI y h
        · exact Or.inr (hreach_new y (List.mem_toFinset.mp h))
      · intro y hy
        rcases List.mem_append.mp hy with h | h
        · exact hq y (List.mem_cons_of_mem _ h)
        · exact Or.inr (hreach_new y h)
      · exact hs.trans Finset.subset_union_left

lemma bfsAux_complete_via (s : BoardState) (S : Finset Pos)
    (hw : s.walls ⊆ S) :
    ∀ (fuel : ℕ) (q : List Pos) (I : Finset Pos),
    (∀ x ∈ q, x ∈ I) →
    S ⊆ I →
    q.length + ((freeFinsetVia s S) \ I).card ≤ fuel →
    I ⊆ bfsAux s fuel q I ∧
    (∀ p, (p ∈ q ∨ (p ∈ bfsAux s fuel q I ∧ p ∉ I)) →
      ∀ d ∈ neighborDeltas, inBoundsP s (stepPos p d) →
        stepPos p d ∉ s.walls → stepPos p d ∈ bfsAux s fuel q I) := by
  intro fuel
  induction fuel with
  | zero =>
    intro q I hqI _ hfuel
    have hq : q = [] := by
      cases q with
      | nil => rfl
      | cons a as => simp at hfuel
    subst hq
    refine ⟨Finset.Subset.refl _, ?_⟩
    rintro p (hp | ⟨hp1, hp2⟩)
    · simp at hp
    · exact absurd hp1 hp2
  | succ fuel ih =>
    intro q I hqI hs hfuel
    cases q with
    | nil =>
      refine ⟨Finset.Subset.refl _, ?_⟩
      rintro p (hp | ⟨hp1, hp2⟩)
      · simp at hp
      · exact absurd hp1 hp2
    | cons p rest =>
      obtain ⟨new, hpair, hnodup, hprops, hcover⟩ := expandCell_spec s p I
      have hstep : bfsAux s (fuel + 1) (p :: rest) I =
          bfsAux s fuel (rest ++ new) (I ∪ new.toFinset) := by
        show bfsAux s fuel (rest ++ (expandCell s p I).2)
          (expandCell s p I).1 = _
        rw [hpair]
      have hsubnew : new.toFinset ⊆ (freeFinsetVia s S) \ I := by
        intro n hn
        obtain ⟨hnI, hnB, _, _⟩ := hprops n (List.mem_toFinset.mp hn)
        exact Finset.mem_sdiff.mpr
          ⟨(mem_freeFinsetVia s S n).mpr ⟨hnB, fun c => hnI (hs c)⟩, hnI⟩
      have hsdiff : (freeFinsetVia s S) \ (I ∪ new.toFinset) =
          ((freeFinsetVia s S) \ I) \ new.toFinset := by
        ext y
        simp only [Finset.mem_sdiff, Finset.mem_union]
        tauto
      have hlen : new.toFinset.card = new.length :=
        List.toFinset_card_of_nodup hnodup
      have hnle : new.length ≤ ((freeFinsetVia s S) \ I).card := by
        rw [← hlen]
        exact Finset.card_le_card hsubnew
      have hcard : ((freeFinsetVia s S) \ (I ∪ new.toFinset)).card =
          ((freeFinsetVia s S) \ I).card - new.length := by
        rw [hsdiff, Finset.card_sdiff hsubnew, hlen]
      have hfuel2 : (rest ++ new).length +
          ((freeFinsetVia s S) \ (I ∪ new.toFinset)).card ≤ fuel := by
        rw [List.length_append, hcard]
        simp only [List.length_cons] at hfuel
        omega
      have hqI2 : ∀ x ∈ rest ++ new, x ∈ I ∪ new.toFinset := by
        intro x hx
        rcases List.mem_append.mp hx with h | h
        · exact Finset.mem_union_left _ (hqI x (List.mem_cons_of_mem _ h))
        · exact Finset.mem_union_right _ (List.mem_toFinset.mpr h)
      have hs2 : S ⊆ I ∪ new.toFinset :=
        hs.trans Finset.subset_union_left
      obtain ⟨ihsub, ihcover⟩ := ih (rest ++ new) (I ∪ new.toFinset)
        hqI2 hs2 hfuel2
      rw [hstep]
      refine ⟨Finset.subset_union_left.trans ihsub, ?_⟩
      intro p0 hp0 d hd hB hW
      rcases hp0 with hp0 | ⟨hpR, hpnI⟩
      · rcases List.mem_cons.mp hp0 with rfl | hp0
        · have hmem := hcover d hd hB hW
          rw [hpair] at hmem
          exact ihsub hmem
        · exact ihcover p0 (Or.inl (List.mem_append_left _ hp0)) d hd hB hW
      · by_cases hI2 : p0 ∈ I ∪ new.toFinset
        · have hnew : p0 ∈ new := by
            rcases Finset.mem_union.mp hI2 with h | h
            · exact absurd h hpnI
            · exact List.mem_toFinset.mp h
          exact ihcover p0 (Or.inl (List.mem_append_right _ hnew)) d hd hB hW
        · exact ihcover p0 (Or.inr ⟨hpR, hI2⟩) d hd hB hW

/-! ### Region computation and the push generator -/

lemma negDelta_mem (d : Pos) (hd : d ∈ neighborDeltas) :
    negDelta d ∈ neighborDeltas := by
  simp only [neighborDeltas, List.mem_cons, List.not_mem_nil, or_false] at hd ⊢
  rcases hd with rfl | rfl | rfl | rfl <;> simp [negDelta]

lemma stepPos_negDelta (p d : Pos) : stepPos (stepPos p d) (negDelta d) = p := by
  unfold stepPos negDelta
  rw [Prod.ext_iff]
  constructor <;> dsimp <;> ring

lemma adjacent_symm (p n : Pos) (h : adjacent p n) : adjacent n p := by
  obtain ⟨d, hd, rfl⟩ := h
  exact ⟨negDelta d, negDelta_mem d hd, (stepPos_negDelta p d).symm⟩

lemma stepPos_ne_delta (q d : Pos) (hd : d ∈ neighborDeltas) :
    stepPos q d ≠ q := by
  simp only [neighborDeltas, List.mem_cons, List.not_mem_nil, or_false] at hd
  rcases hd with rfl | rfl | rfl | rfl <;> simp [stepPos, Prod.ext_iff]

lemma playerReach_trans (lvl : BoardState) (B : Finset Pos) (x y z : Pos)
    (h1 : PlayerReach lvl B x y) (h2 : PlayerReach lvl B y z) :
    PlayerReach lvl B x z := by
  induction h2 with
  | refl => exact h1
  | step m n hm hadj hB hW hnB ih =>
    exact PlayerReach.step m n ih hadj hB hW hnB

lemma playerReach_inv (lvl : BoardState) (B : Finset Pos) (pl m : Pos)
    (h : PlayerReach lvl B pl m) :
    m = pl ∨ (inBoundsP lvl m ∧ m ∉ lvl.walls ∧ m ∉ B) := by
  cases h with
  | refl => exact Or.inl rfl
  | step m2 n hm hadj hB hW hnB => exact Or.inr ⟨hB, hW, hnB⟩

lemma playerReach_symm (lvl : BoardState) (B : Finset Pos) (pl : Pos)
    (hplf : floorCell lvl pl) (hplB : pl ∉ B) (m : Pos)
    (h : PlayerReach lvl B pl m) : PlayerReach lvl B m pl := by
  induction h with
  | refl => exact PlayerReach.refl
  | step m2 n hm hadj hB hW hnB ih =>
    have hstep : PlayerReach lvl B n m2 := by
      rcases playerReach_inv lvl B pl m2 hm with heq | ⟨h1, h2, h3⟩
      · rw [heq] at hadj ⊢
        exact PlayerReach.step n pl PlayerReach.refl (adjacent_symm pl n hadj)
          hplf.1 hplf.2 hplB
      · exact PlayerReach.step n m2 PlayerReach.refl (adjacent_symm m2 n hadj)
          h1 h2 h3
    exact playerReach_trans lvl B n m2 pl hstep ih

lemma reachVia_to_playerReach (lvl : BoardState) (B : Finset Pos)
    (pl n : Pos) (h : ReachVia lvl (insert pl (lvl.walls ∪ B)) pl n) :
    PlayerReach lvl B pl n := by
  induction h with
  | base n hadj hB hnS =>
    exact PlayerReach.step pl n PlayerReach.refl hadj hB
      (fun hc => hnS (Finset.mem_insert_of_mem (Finset.mem_union_left _ hc)))
      (fun hc => hnS (Finset.mem_insert_of_mem (Finset.mem_union_right _ hc)))
  | step m n hm hadj hB hnS ih =>
    exact PlayerReach.step m n ih hadj hB
      (fun hc => hnS (Finset.mem_insert_of_mem (Finset.mem_union_left _ hc)))
      (fun hc => hnS (Finset.mem_insert_of_mem (Finset.mem_union_right _ hc)))

/-- The flood fill of §4.2 computes exactly the cells the player can
walk to. -/
lemma regionOf_characterisation (lvl : BoardState) (B : Finset Pos)
    (pl : Pos) (hplf : floorCell lvl pl) (hplB : pl ∉ B) (x : Pos) :
    x ∈ regionOf lvl B pl ↔ PlayerReach lvl B pl x := by
  have hw : lvl.walls ⊆ insert pl (lvl.walls ∪ B) := fun y hy =>
    Finset.mem_insert_of_mem (Finset.mem_union_left _ hy)
  have hfuel : [pl].length +
      ((freeFinsetVia lvl (insert pl (lvl.walls ∪ B))) \
        (insert pl (lvl.walls ∪ B))).card ≤ interiorFuel lvl := by
    have h1 : ((freeFinsetVia lvl (insert pl (lvl.walls ∪ B))) \
        (insert pl (lvl.walls ∪ B))).card ≤
        (freeFinsetVia lvl (insert pl (lvl.walls ∪ B))).card :=
      Finset.card_le_card (Finset.sdiff_subset)
    have h2 := freeFinsetVia_card lvl (insert pl (lvl.walls ∪ B))
    unfold interiorFuel
    simp only [List.length_singleton]
    omega
  obtain ⟨hsub, hcover⟩ := bfsAux_complete_via lvl
    (insert pl (lvl.walls ∪ B)) hw (interiorFuel lvl) [pl]
    (insert pl (lvl.walls ∪ B))
    (fun y hy => by
      simp only [List.mem_singleton] at hy
      subst hy
      exact Finset.mem_insert_self _ _)
    (Finset.Subset.refl _) hfuel
  constructor
  · intro hx
    unfold regionOf at hx
    obtain ⟨hxR, hxout⟩ := Finset.mem_sdiff.mp hx
    rcases bfsAux_sound_via lvl (insert pl (lvl.walls ∪ B)) pl hw
      (interiorFuel lvl) [pl] (insert pl (lvl.walls ∪ B))
      (fun y hy => Or.inl hy)
      (fun y hy => Or.inl (by simpa using hy))
      (Finset.Subset.refl _) x hxR with hS | hV
    · rcases Finset.mem_insert.mp hS with rfl | hS
      · exact PlayerReach.refl
      · exact absurd hS hxout
    · exact reachVia_to_playerReach lvl B pl x hV
  · intro hx
    induction hx with
    | refl =>
      unfold regionOf
      refine Finset.mem_sdiff.mpr ⟨hsub (Finset.mem_insert_self _ _), ?_⟩
      intro hc
      rcases Finset.mem_union.mp hc with hc | hc
      · exact hplf.2 hc
      · exact hplB hc
    | step m n hm hadj hB hW hnB ih =>
      unfold regionOf at ih ⊢
      obtain ⟨hmR, hmout⟩ := Finset.mem_sdiff.mp ih
      obtain ⟨d, hd, rfl⟩ := hadj
      have hsrc : m ∈ [pl] ∨ (m ∈ bfsAux lvl (interiorFuel lvl) [pl]
          (insert pl (lvl.walls ∪ B)) ∧ m ∉ insert pl (lvl.walls ∪ B)) := by
        by_cases hmp : m = pl
        · exact Or.inl (by simp [hmp])
        · exact Or.inr ⟨hmR, fun hc => by
            rcases Finset.mem_insert.mp hc with h | h
            · exact hmp h
            · exact hmout h⟩
      refine Finset.mem_sdiff.mpr ⟨hcover m hsrc d hd hB hW, ?_⟩
      intro hc
      rcases Finset.mem_union.mp hc with hc | hc
      · exact hW hc
      · exact hnB hc

lemma playerReach_equiv (lvl : BoardState) (B : Finset Pos) (pl m : Pos)
    (hplf : floorCell lvl pl) (hplB : pl ∉ B)
    (hm : PlayerReach lvl B pl m) (x : Pos) :
    PlayerReach lvl B m x ↔ PlayerReach lvl B pl x :=
  ⟨fun h => playerReach_trans lvl B pl m x hm h,
   fun h => playerReach_trans lvl B m pl x
     (playerReach_symm lvl B pl hplf hplB m hm) h⟩

lemma playerReach_conds (lvl : BoardState) (B : Finset Pos) (pl m : Pos)
    (hplf : floorCell lvl pl) (hplB : pl ∉ B)
    (hm : PlayerReach lvl B pl m) : floorCell lvl m ∧ m ∉ B := by
  rcases playerReach_inv lvl B pl m hm with heq | ⟨h1, h2, h3⟩
  · rw [heq]; exact ⟨hplf, hplB⟩
  · exact ⟨⟨h1, h2⟩, h3⟩

lemma regionOf_indep (lvl : BoardState) (B : Finset Pos) (pl m : Pos)
    (hplf : floorCell lvl pl) (hplB : pl ∉ B)
    (hm : PlayerReach lvl B pl m) :
    regionOf lvl B m = regionOf lvl B pl := by
  obtain ⟨hmf, hmB⟩ := playerReach_conds lvl B pl m hplf hplB hm
  ext x
  rw [regionOf_characterisation lvl B m hmf hmB x,
    regionOf_characterisation lvl B pl hplf hplB x]
  exact playerReach_equiv lvl B pl m hplf hplB hm x

lemma regionOf_self_mem (lvl : BoardState) (B : Finset Pos) (pl : Pos)
    (hplf : floorCell lvl pl) (hplB : pl ∉ B) :
    pl ∈ regionOf lvl B pl :=
  (regionOf_characterisation lvl B pl hplf hplB pl).mpr PlayerReach.refl

lemma rowMajorMin_mem (R : Finset Pos) (hne : R.Nonempty) :
    ∃ m2, rowMajorMin R = some m2 ∧ m2 ∈ R := by
  unfold rowMajorMin
  rw [sortFin_eq]
  cases hs : R.sort lexLe with
  | nil =>
    exfalso
    have hlen := Finset.length_sort (s := R) lexLe
    rw [hs] at hlen
    obtain ⟨y, hy⟩ := hne
    have : R.card = 0 := by simpa using hlen.symm
    rw [Finset.card_eq_zero] at this
    rw [this] at hy
    simp at hy
  | cons a as =>
    refine ⟨a, rfl, ?_⟩
    rw [← Finset.mem_sort (r := lexLe), hs]
    exact List.mem_cons_self a as

/-- The canonical region representative is itself in the player's
region, and recomputing the region from it gives the same region. -/
lemma normalize_regionId (lvl : BoardState) (B : Finset Pos) (pl : Pos)
    (hplf : floorCell lvl pl) (hplB : pl ∉ B) :
    PlayerReach lvl B pl (normalize lvl B pl).regionId ∧
    regionOf lvl B (normalize lvl B pl).regionId = regionOf lvl B pl := by
  have hne : (regionOf lvl B pl).Nonempty :=
    ⟨pl, regionOf_self_mem lvl B pl hplf hplB⟩
  obtain ⟨m2, hmin, hmem⟩ := rowMajorMin_mem _ hne
  have hid : (normalize lvl B pl).regionId = m2 := by
    unfold normalize
    rw [hmin]
    rfl
  rw [hid]
  have hr : PlayerReach lvl B pl m2 :=
    (regionOf_characterisation lvl B pl hplf hplB m2).mp hmem
  exact ⟨hr, regionOf_indep lvl B pl m2 hplf hplB hr⟩

lemma pushStep_boxes_card (lvl : BoardState) (c c2 : Config)
    (h : PushStep lvl c c2) : c2.boxes.card = c.boxes.card := by
  obtain ⟨b, hb, d, hd, _, _, hfree, rfl⟩ := h
  show (insert (stepPos b d) (c.boxes.erase b)).card = _
  rw [Finset.card_insert_of_not_mem
    (fun hc => hfree (Finset.mem_erase.mp hc).2),
    Finset.card_erase_of_mem hb]
  have : 0 < c.boxes.card := Finset.card_pos.mpr ⟨b, hb⟩
  omega

lemma pushStep_valid (lvl : BoardState) (c c2 : Config)
    (hv : ValidCfg lvl c) (h : PushStep lvl c c2) : ValidCfg lvl c2 := by
  have hcard := pushStep_boxes_card lvl c c2 h
  obtain ⟨b, hb, d, hd, hreach, hfl, hfree, rfl⟩ := h
  refine ⟨hv.2.2.1 b hb, ?_, ?_, ?_⟩
  · intro hc
    rcases Finset.mem_insert.mp hc with hc | hc
    · exact stepPos_ne_delta b d hd hc.symm
    · exact (Finset.mem_erase.mp hc).1 rfl
  · intro x hx
    rcases Finset.mem_insert.mp hx with rfl | hx
    · exact hfl
    · exact hv.2.2.1 x (Finset.mem_of_mem_erase hx)
  · rw [hcard]
    exact hv.2.2.2

/-- Unfolding membership in the push generator's output. -/
lemma genPushes_mem_iff (lvl : BoardState) (s : SState) (t : SState) :
    t ∈ genPushes lvl s ↔ ∃ b ∈ s.boxes, ∃ d ∈ neighborDeltas,
      stepPos b (negDelta d) ∈ regionOf lvl s.boxes s.regionId ∧
      floorCell lvl (stepPos b d) ∧ stepPos b d ∉ s.boxes ∧
      t = normalize lvl (insert (stepPos b d) (s.boxes.erase b)) b := by
  unfold genPushes boxList
  simp only [sortFin_eq, List.mem_flatMap, Finset.mem_sort]
  constructor
  · rintro ⟨b, hb, d, hd, hmem⟩
    by_cases hcond : stepPos b (negDelta d) ∈ regionOf lvl s.boxes s.regionId ∧
        floorCell lvl (stepPos b d) ∧ stepPos b d ∉ s.boxes
    · rw [if_pos hcond] at hmem
      simp only [List.mem_singleton] at hmem
      exact ⟨b, hb, d, hd, hcond.1, hcond.2.1, hcond.2.2, hmem⟩
    · rw [if_neg hcond] at hmem
      simp at hmem
  · rintro ⟨b, hb, d, hd, h1, h2, h3, rfl⟩
    refine ⟨b, hb, d, hd, ?_⟩
    rw [if_pos ⟨h1, h2, h3⟩]
    exact List.mem_singleton.mpr rfl

/-- Forward simulation: every legal push of a configuration shows up
in the generator's output for its search state. -/
lemma genPushes_complete (lvl : BoardState) (c c2 : Config)
    (hv : ValidCfg lvl c) (h : PushStep lvl c c2) :
    absState lvl c2 ∈ genPushes lvl (absState lvl c) := by
  obtain ⟨hrid, hreg⟩ := normalize_regionId lvl c.boxes c.player hv.1 hv.2.1
  obtain ⟨b, hb, d, hd, hreach, hfl, hfree, rfl⟩ := h
  rw [genPushes_mem_iff]
  refine ⟨b, hb, d, hd, ?_, hfl, hfree, rfl⟩
  show stepPos b (negDelta d) ∈
    regionOf lvl c.boxes (normalize lvl c.boxes c.player).regionId
  rw [hreg, regionOf_characterisation lvl c.boxes c.player hv.1 hv.2.1]
  exact hreach

/-- Backward simulation: every generator edge is realised by a legal
push of the underlying configuration. -/
lemma genPushes_sound (lvl : BoardState) (c : Config)
    (hv : ValidCfg lvl c) (t : SState)
    (ht : t ∈ genPushes lvl (absState lvl c)) :
    ∃ c2, PushStep lvl c c2 ∧ absState lvl c2 = t := by
  obtain ⟨hrid, hreg⟩ := normalize_regionId lvl c.boxes c.player hv.1 hv.2.1
  rw [genPushes_mem_iff] at ht
  unfold absState at ht
  obtain ⟨b, hb, d, hd, h1, h2, h3, rfl⟩ := ht
  have hbx : (normalize lvl c.boxes c.player).boxes = c.boxes := rfl
  rw [hbx] at hb h3
  rw [hbx, hreg,
    regionOf_characterisation lvl c.boxes c.player hv.1 hv.2.1] at h1
  exact ⟨⟨b, insert (stepPos b d) (c.boxes.erase b)⟩,
    ⟨b, hb, d, hd, h1, h2, h3, rfl⟩, rfl⟩

/-! ### Heuristic: minimum-matching lower bound (§4.5) -/

lemma foldl_min_le_init (xs : List ℕ) : ∀ x : ℕ, xs.foldl min x ≤ x := by
  induction xs with
  | nil => intro x; exact le_refl x
  | cons y ys ih =>
    intro x
    exact le_trans (ih (min x y)) (min_le_left x y)

lemma foldl_min_le_mem (xs : List ℕ) :
    ∀ (x : ℕ) (z : ℕ), z ∈ xs → xs.foldl min x ≤ z := by
  induction xs with
  | nil => intro x z hz; simp at hz
  | cons y ys ih =>
    intro x z hz
    rcases List.mem_cons.mp hz with rfl | hz
    · exact le_trans (foldl_min_le_init ys (min x z)) (min_le_right x z)
    · exact ih (min x y) z hz

lemma foldl_min_mem (xs : List ℕ) : ∀ x : ℕ, xs.foldl min x = x ∨
    xs.foldl min x ∈ xs := by
  induction xs with
  | nil => intro x; exact Or.inl rfl
  | cons y ys ih =>
    intro x
    rcases ih (min x y) with h | h
    · rcases min_cases x y with ⟨hm, _⟩ | ⟨hm, _⟩
      · rw [List.foldl_cons, h, hm]
        exact Or.inl rfl
      · rw [List.foldl_cons, h, hm]
        exact Or.inr (List.mem_cons_self _ _)
    · exact Or.inr (List.mem_cons_of_mem _ h)

lemma listMin_le (l : List ℕ) (x : ℕ) (hx : x ∈ l) : listMin l ≤ x := by
  cases l with
  | nil => simp at hx
  | cons y ys =>
    rcases List.mem_cons.mp hx with rfl | hx
    · exact foldl_min_le_init ys x
    · exact foldl_min_le_mem ys y x hx

lemma listMin_mem (l : List ℕ) (h : l ≠ []) : listMin l ∈ l := by
  cases l with
  | nil => exact absurd rfl h
  | cons y ys =>
    rcases foldl_min_mem ys y with h2 | h2
    · rw [show listMin (y :: ys) = ys.foldl min y from rfl, h2]
      exact List.mem_cons_self _ _
    · exact List.mem_cons_of_mem _ ((show listMin (y :: ys) = ys.foldl min y from rfl) ▸ h2)

lemma manhattan_self (a : Pos) : manhattan a a = 0 := by
  unfold manhattan
  omega

lemma manhattan_triangle (a b c : Pos) :
    manhattan a c ≤ manhattan a b + manhattan b c := by
  unfold manhattan
  omega

lemma manhattan_comm (a b : Pos) : manhattan a b = manhattan b a := by
  unfold manhattan
  omega

lemma zipCost_self_zero (bs : List Pos) : zipCost bs bs = 0 := by
  induction bs with
  | nil => rfl
  | cons b rest ih =>
    show manhattan b b + zipCost rest rest = 0
    rw [manhattan_self, ih]

/-- Replacing one left-hand cell changes the pairing cost by at most
the Manhattan distance between the two cells. -/
lemma zipCost_replace (A C : List Pos) (b t : Pos) :
    ∀ q : List Pos,
    zipCost (A ++ b :: C) q ≤ zipCost (A ++ t :: C) q + manhattan b t := by
  induction A with
  | nil =>
    intro q
    cases q with
    | nil => simp [zipCost]
    | cons g qr =>
      show manhattan b g + zipCost C qr ≤
        manhattan t g + zipCost C qr + manhattan b t
      have := manhattan_triangle b t g
      have := manhattan_comm t g
      omega
  | cons a A2 ih =>
    intro q
    cases q with
    | nil => simp [zipCost]
    | cons g qr =>
      show manhattan a g + zipCost (A2 ++ b :: C) qr ≤
        manhattan a g + zipCost (A2 ++ t :: C) qr + manhattan b t
      have := ih qr
      omega

/-- Reordering the left list of a pairing can be matched by reordering
the right list, preserving the cost. -/
lemma zipCost_perm_left : ∀ {L L2 : List Pos}, L.Perm L2 →
    ∀ q : List Pos, L.length = q.length →
    ∃ q2, q2.Perm q ∧ zipCost L2 q2 = zipCost L q := by
  intro L L2 h
  induction h with
  | nil =>
    intro q _
    exact ⟨q, List.Perm.refl q, rfl⟩
  | cons x hperm ih =>
    intro q hlen
    cases q with
    | nil => simp at hlen
    | cons g qr =>
      obtain ⟨q2, hq2, hcost⟩ := ih qr (by simpa using hlen)
      refine ⟨g :: q2, List.Perm.cons g hq2, ?_⟩
      exact congrArg (fun z => manhattan x g + z) hcost
  | swap x y l =>
    intro q hlen
    cases q with
    | nil => simp at hlen
    | cons g1 qr =>
      cases qr with
      | nil => simp at hlen
      | cons g2 qr2 =>
        refine ⟨g2 :: g1 :: qr2, List.Perm.swap g1 g2 qr2, ?_⟩
        show manhattan x g2 + (manhattan y g1 + zipCost l qr2) =
          manhattan y g1 + (manhattan x g2 + zipCost l qr2)
        omega
  | trans h1 h2 ih1 ih2 =>
    intro q hlen
    obtain ⟨q1, hq1, hc1⟩ := ih1 q hlen
    obtain ⟨q2, hq2, hc2⟩ := ih2 q1
      (by rw [← h1.length_eq, hlen, hq1.length_eq])
    exact ⟨q2, hq2.trans hq1, by rw [hc2, hc1]⟩

lemma heuristic_le_zipCost (lvl : BoardState) (B : Finset Pos)
    (q : List Pos) (hq : q.Perm (lvl.goals.sort lexLe)) :
    heuristic lvl B ≤ zipCost (B.sort lexLe) q := by
  unfold heuristic
  simp only [sortFin_eq]
  refine listMin_le _ _ ?_
  exact List.mem_map.mpr ⟨q, List.mem_permutations.mpr hq, rfl⟩

lemma heuristic_attained (lvl : BoardState) (B : Finset Pos) :
    ∃ q, q.Perm (lvl.goals.sort lexLe) ∧
      heuristic lvl B = zipCost (B.sort lexLe) q := by
  have hh : heuristic lvl B = listMin (((lvl.goals.sort lexLe).permutations).map
      (fun p => zipCost (B.sort lexLe) p)) := by
    unfold heuristic
    simp only [sortFin_eq]
  rw [hh]
  have hne : (((lvl.goals.sort lexLe).permutations).map
      (fun p => zipCost (B.sort lexLe) p)) ≠ [] := by
    simp only [ne_eq, List.map_eq_nil_iff]
    intro hc
    have := List.mem_permutations.mpr (List.Perm.refl (lvl.goals.sort lexLe))
    rw [hc] at this
    simp at this
  have hmem := listMin_mem _ hne
  rw [List.mem_map] at hmem
  obtain ⟨q, hq, hval⟩ := hmem
  exact ⟨q, List.mem_permutations.mp hq, hval.symm⟩

/-- A state with every box on a goal (and a full complement of boxes)
has heuristic zero. -/
lemma heuristic_goal_zero (lvl : BoardState) (B : Finset Pos)
    (hsub : B ⊆ lvl.goals) (hcard : B.card = lvl.goals.card) :
    heuristic lvl B = 0 := by
  have hBeq : B = lvl.goals :=
    Finset.eq_of_subset_of_card_le hsub (le_of_eq hcard.symm)
  rw [hBeq]
  have h := heuristic_le_zipCost lvl lvl.goals (lvl.goals.sort lexLe)
    (List.Perm.refl _)
  rw [zipCost_self_zero] at h
  omega

/-- Consistency of the matching heuristic: one push (moving one box by
one cell) lowers it by at most one. -/
lemma heuristic_consistent (lvl : BoardState) (B : Finset Pos) (b t : Pos)
    (hb : b ∈ B) (ht : t ∉ B) (hstep : manhattan b t = 1)
    (hcard : B.card = lvl.goals.card) :
    heuristic lvl B ≤ heuristic lvl (insert t (B.erase b)) + 1 := by
  set B2 := insert t (B.erase b) with hB2
  have hcard2 : B2.card = B.card := by
    rw [hB2, Finset.card_insert_of_not_mem
      (fun hc => ht (Finset.mem_of_mem_erase hc)),
      Finset.card_erase_of_mem hb]
    have : 0 < B.card := Finset.card_pos.mpr ⟨b, hb⟩
    omega
  obtain ⟨q2, hq2perm, hq2val⟩ := heuristic_attained lvl B2
  have htmem : t ∈ B2.sort lexLe := by
    rw [Finset.mem_sort]
    exact Finset.mem_insert_self t _
  obtain ⟨A, C, hAC⟩ := List.append_of_mem htmem
  have hsort_val : ∀ (S : Finset Pos),
      ((S.sort lexLe : List Pos) : Multiset Pos) = S.val := by
    intro S
    have hperm : (S.sort lexLe).Perm S.toList := Finset.sort_perm_toList _ _
    calc ((S.sort lexLe : List Pos) : Multiset Pos)
        = (S.toList : Multiset Pos) := Multiset.coe_eq_coe.mpr hperm
      _ = S.val := Multiset.coe_toList S.val
  have hB2val : B2.val = t ::ₘ (B.erase b).val := by
    rw [hB2, Finset.insert_val,
      Multiset.ndinsert_of_not_mem (fun hc => ht (Finset.mem_of_mem_erase hc))]
  have hM : ((A : List Pos) : Multiset Pos) + (C : Multiset Pos) =
      (B.erase b).val := by
    have h1 : ((B2.sort lexLe : List Pos) : Multiset Pos) = B2.val :=
      hsort_val B2
    rw [hAC] at h1
    have h2 : ((A ++ t :: C : List Pos) : Multiset Pos) =
        t ::ₘ ((A : Multiset Pos) + (C : Multiset Pos)) := by
      simp [Multiset.cons_coe]
    rw [h2, hB2val] at h1
    exact (Multiset.cons_inj_right t).mp h1
  have hperm : (A ++ b :: C : List Pos).Perm (B.sort lexLe) := by
    rw [← Multiset.coe_eq_coe]
    have h3 : ((A ++ b :: C : List Pos) : Multiset Pos) =
        b ::ₘ ((A : Multiset Pos) + (C : Multiset Pos)) := by
      simp [Multiset.cons_coe]
    rw [h3, hM, hsort_val B, Finset.erase_val, Multiset.cons_erase]
    exact hb
  have hlenq2 : q2.length = lvl.goals.card := by
    rw [hq2perm.length_eq, Finset.length_sort]
  have hlen : (A ++ b :: C : List Pos).length = q2.length := by
    have h4 : (A ++ b :: C : List Pos).length = (A ++ t :: C : List Pos).length := by
      simp
    rw [h4, ← hAC, Finset.length_sort, hcard2, hcard, hlenq2]
  obtain ⟨q3, hq3perm, hq3val⟩ := zipCost_perm_left hperm q2 hlen
  calc heuristic lvl B
      ≤ zipCost (B.sort lexLe) q3 :=
        heuristic_le_zipCost lvl B q3 (hq3perm.trans hq2perm)
    _ = zipCost (A ++ b :: C) q2 := hq3val
    _ ≤ zipCost (A ++ t :: C) q2 + manhattan b t := zipCost_replace A C b t q2
    _ = heuristic lvl B2 + 1 := by rw [← hAC, ← hq2val, hstep]

/-! ### Deadlock soundness (§4.4) -/

lemma mem_floorFinset (lvl : BoardState) (p : Pos) :
    p ∈ floorFinset lvl ↔ floorCell lvl p := by
  unfold floorFinset floorCell inBoundsP
  simp only [Finset.mem_filter, Finset.mem_product, Finset.mem_Ico]
  tauto

/-- A progressive, bounded set transformer reaches a fixpoint after
`(X0 ∪ Bnd).card + 1` iterations. -/
lemma iterate_fixed (f : Finset Pos → Finset Pos) (Bnd X0 : Finset Pos)
    (hincl : ∀ X, X ⊆ f X) (hbound : ∀ X, f X ⊆ X ∪ Bnd) :
    f (f^[(X0 ∪ Bnd).card + 1] X0) = f^[(X0 ∪ Bnd).card + 1] X0 := by
  set N := (X0 ∪ Bnd).card + 1 with hN
  have hsub : ∀ k, f^[k] X0 ⊆ X0 ∪ Bnd := by
    intro k
    induction k with
    | zero => exact Finset.subset_union_left
    | succ k ih =>
      rw [Function.iterate_succ_apply']
      refine (hbound _).trans ?_
      intro y hy
      rcases Finset.mem_union.mp hy with h | h
      · exact ih h
      · exact Finset.mem_union_right _ h
  have hstable : ∀ k, f (f^[k] X0) = f^[k] X0 →
      ∀ j, k ≤ j → f^[j] X0 = f^[k] X0 := by
    intro k hk j hj
    induction j with
    | zero =>
      have : k = 0 := Nat.le_zero.mp hj
      rw [this]
    | succ j ih =>
      rcases Nat.lt_or_ge k (j + 1) with h | h
      · have hjk : k ≤ j := Nat.lt_succ_iff.mp h
        rw [Function.iterate_succ_apply', ih hjk, hk]
      · have : k = j + 1 := le_antisymm hj h
        rw [this]
  have hexists : ∃ k, k < N ∧ f (f^[k] X0) = f^[k] X0 := by
    by_contra hc
    push_neg at hc
    have hstrict : ∀ k, k ≤ N → k ≤ (f^[k] X0).card := by
      intro k hk
      induction k with
      | zero => exact Nat.zero_le _
      | succ k ih =>
        have hk2 : k ≤ N := Nat.le_of_succ_le hk
        have hne := hc k (Nat.lt_of_succ_le hk)
        have hss : f^[k] X0 ⊂ f (f^[k] X0) :=
          Finset.ssubset_iff_subset_ne.mpr ⟨hincl _, fun h => hne h.symm⟩
        have hlt := Finset.card_lt_card hss
        have hih := ih hk2
        rw [Function.iterate_succ_apply']
        omega
    have h1 := hstrict N (le_refl N)
    have h2 := Finset.card_le_card (hsub N)
    omega
  obtain ⟨k, hkN, hk⟩ := hexists
  have hNk := hstable k hk N (Nat.le_of_lt hkN)
  rw [hNk, hk]

lemma rrFix_fixed (lvl : BoardState) :
    rrStep lvl (rrFix lvl) = rrFix lvl := by
  unfold rrFix
  exact iterate_fixed (rrStep lvl) (floorFinset lvl) lvl.goals
    (fun X => Finset.subset_union_left)
    (fun X => by
      unfold rrStep
      intro y hy
      rcases Finset.mem_union.mp hy with h | h
      · exact Finset.mem_union_left _ h
      · exact Finset.mem_union_right _ (Finset.mem_filter.mp h).1)

lemma rrFix_goals (lvl : BoardState) : lvl.goals ⊆ rrFix lvl := by
  unfold rrFix
  have : ∀ k, lvl.goals ⊆ (rrStep lvl)^[k] lvl.goals := by
    intro k
    induction k with
    | zero => exact Finset.Subset.refl _
    | succ k ih =>
      rw [Function.iterate_succ_apply']
      exact ih.trans (by unfold rrStep; exact Finset.subset_union_left)
  exact this _

/-- Closure of the reverse-reachability fixpoint under single-box
pushes: if a push from `y` lands in the fixpoint, `y` is in it too. -/
lemma rrFix_closed (lvl : BoardState) (y d : Pos) (hd : d ∈ neighborDeltas)
    (hy : floorCell lvl y) (hplayer : floorCell lvl (stepPos y (negDelta d)))
    (hdest : stepPos y d ∈ rrFix lvl) : y ∈ rrFix lvl := by
  rw [← rrFix_fixed lvl]
  unfold rrStep
  refine Finset.mem_union_right _ (Finset.mem_filter.mpr
    ⟨(mem_floorFinset lvl y).mpr hy, d, hd, hdest, hplayer⟩)

lemma path_valid (lvl : BoardState) (π : ℕ → Config) (n : ℕ)
    (hpath : IsPushPath lvl π n) (hv : ValidCfg lvl (π 0)) :
    ∀ i, i ≤ n → ValidCfg lvl (π i) := by
  intro i
  induction i with
  | zero => intro _; exact hv
  | succ i ih =>
    intro hi
    exact pushStep_valid lvl (π i) (π (i + 1))
      (ih (Nat.le_of_succ_le hi)) (hpath i (Nat.lt_of_succ_le hi))

/-- Static-deadlock soundness: a configuration with a box outside the
reverse-reachability fixpoint can never place every box on a goal. -/
lemma staticDead_no_solution (lvl : BoardState) :
    ∀ (n : ℕ) (π : ℕ → Config), IsPushPath lvl π n →
    ValidCfg lvl (π 0) → (∃ b ∈ (π 0).boxes, b ∉ rrFix lvl) →
    ¬ ((π n).boxes ⊆ lvl.goals) := by
  intro n
  induction n with
  | zero =>
    rintro π _ _ ⟨b, hb, hdead⟩ hgoal
    exact hdead (rrFix_goals lvl (hgoal hb))
  | succ n ih =>
    rintro π hpath hv ⟨b0, hb0, hdead⟩ hgoal
    have hstep := hpath 0 (Nat.succ_pos n)
    have hv1 := pushStep_valid lvl (π 0) (π 1) hv hstep
    obtain ⟨b, hb, d, hd, hreach, hfl, hfree, heq⟩ := hstep
    have hinv1 : ∃ b2 ∈ (π 1).boxes, b2 ∉ rrFix lvl := by
      by_cases hcase : b0 = b
      · refine ⟨stepPos b d, ?_, ?_⟩
        · rw [heq]
          exact Finset.mem_insert_self _ _
        · intro hc
          have hbfloor : floorCell lvl b := hv.2.2.1 b hb
          have hpfloor : floorCell lvl (stepPos b (negDelta d)) := by
            rcases playerReach_conds lvl (π 0).boxes (π 0).player
              (stepPos b (negDelta d)) hv.1 hv.2.1 hreach with ⟨hf, _⟩
            exact hf
          exact (hcase ▸ hdead) (rrFix_closed lvl b d hd hbfloor hpfloor hc)
      · refine ⟨b0, ?_, hdead⟩
        rw [heq]
        exact Finset.mem_insert_of_mem (Finset.mem_erase.mpr ⟨hcase, hb0⟩)
    have hshift : IsPushPath lvl (fun i => π (i + 1)) n :=
      fun i hi => hpath (i + 1) (Nat.succ_lt_succ hi)
    exact ih (fun i => π (i + 1)) hshift hv1 hinv1 hgoal

lemma wedged_mono (lvl : BoardState) (M M2 : Finset Pos) (b : Pos)
    (hMM : M ⊆ M2) (h : wedged lvl M b) : wedged lvl M2 b := by
  unfold wedged at h ⊢
  refine ⟨⟨?_, ?_⟩, ?_, ?_⟩ <;>
    [rcases h.1.1 with h2 | h2; rcases h.1.2 with h2 | h2;
     rcases h.2.1 with h2 | h2; rcases h.2.2 with h2 | h2] <;>
    first
      | exact Or.inl h2
      | exact Or.inr (hMM h2)

lemma wedged_neighbor (lvl : BoardState) (M : Finset Pos) (b d : Pos)
    (hd : d ∈ neighborDeltas) (hw : wedged lvl M b) :
    stepPos b d ∈ lvl.walls ∨ stepPos b d ∈ M := by
  simp only [neighborDeltas, List.mem_cons, List.not_mem_nil, or_false] at hd
  rcases hd with rfl | rfl | rfl | rfl
  · exact hw.2.1
  · exact hw.2.2
  · exact hw.1.1
  · exact hw.1.2

lemma frozenSet_subset (lvl : BoardState) (B : Finset Pos) :
    frozenSet lvl B ⊆ B := by
  unfold frozenSet
  have : ∀ k, (freezeStep lvl B)^[k] ∅ ⊆ B := by
    intro k
    induction k with
    | zero => simp
    | succ k ih =>
      rw [Function.iterate_succ_apply']
      unfold freezeStep
      intro y hy
      rcases Finset.mem_union.mp hy with h | h
      · exact ih h
      · exact (Finset.mem_filter.mp h).1
  exact this _

lemma frozenSet_wedged (lvl : BoardState) (B : Finset Pos) :
    ∀ b ∈ frozenSet lvl B, wedged lvl (frozenSet lvl B) b := by
  unfold frozenSet
  have hmono : ∀ k, (freezeStep lvl B)^[k] ∅ ⊆
      (freezeStep lvl B)^[k + 1] ∅ := by
    intro k
    rw [Function.iterate_succ_apply']
    unfold freezeStep
    exact Finset.subset_union_left
  have hkey : ∀ k, ∀ b ∈ (freezeStep lvl B)^[k] ∅,
      wedged lvl ((freezeStep lvl B)^[k] ∅) b := by
    intro k
    induction k with
    | zero => intro b hb; simp at hb
    | succ k ih =>
      intro b hb
      rw [Function.iterate_succ_apply'] at hb ⊢
      unfold freezeStep at hb ⊢
      have hsub : (freezeStep lvl B)^[k] ∅ ⊆
          (freezeStep lvl B)^[k] ∅ ∪ B.filter
            (wedged lvl ((freezeStep lvl B)^[k] ∅)) :=
        Finset.subset_union_left
      rcases Finset.mem_union.mp hb with h | h
      · exact wedged_mono lvl _ _ b hsub (ih b h)
      · exact wedged_mono lvl _ _ b hsub (Finset.mem_filter.mp h).2
  exact hkey _

/-- Freeze-deadlock soundness: a set of mutually wedged boxes (with an
off-goal member) pins the configuration away from every solution. -/
lemma wedgedSet_no_solution (lvl : BoardState) (F : Finset Pos)
    (hwedge : ∀ b ∈ F, wedged lvl F b) :
    ∀ (n : ℕ) (π : ℕ → Config), IsPushPath lvl π n →
    ValidCfg lvl (π 0) → F ⊆ (π 0).boxes →
    (∃ b ∈ F, b ∉ lvl.goals) → ¬ ((π n).boxes ⊆ lvl.goals) := by
  intro n
  induction n with
  | zero =>
    rintro π _ _ hFsub ⟨b, hbF, hbg⟩ hgoal
    exact hbg (hgoal (hFsub hbF))
  | succ n ih =>
    rintro π hpath hv hFsub hwit hgoal
    have hstep := hpath 0 (Nat.succ_pos n)
    have hv1 := pushStep_valid lvl (π 0) (π 1) hv hstep
    obtain ⟨b, hb, d, hd, hreach, hfl, hfree, heq⟩ := hstep
    have hbnotF : b ∉ F := by
      intro hbF
      rcases wedged_neighbor lvl F b d hd (hwedge b hbF) with h | h
      · exact hfl.2 h
      · exact hfree (hFsub h)
    have hFsub1 : F ⊆ (π 1).boxes := by
      intro x hx
      rw [heq]
      exact Finset.mem_insert_of_mem
        (Finset.mem_erase.mpr ⟨fun hc => hbnotF (hc ▸ hx), hFsub hx⟩)
    have hshift : IsPushPath lvl (fun i => π (i + 1)) n :=
      fun i hi => hpath (i + 1) (Nat.succ_lt_succ hi)
    exact ih (fun i => π (i + 1)) hshift hv1 hFsub1 hwit hgoal

/-- Both detectors combined: a deadlock-flagged box set can never be
completed to all-on-goals. -/
lemma deadlocked_no_solution (lvl : BoardState) (n : ℕ) (π : ℕ → Config)
    (hpath : IsPushPath lvl π n) (hv : ValidCfg lvl (π 0))
    (hd : deadlocked lvl (π 0).boxes) : ¬ ((π n).boxes ⊆ lvl.goals) := by
  rcases hd with hd | hd
  · exact staticDead_no_solution lvl n π hpath hv hd
  · exact wedgedSet_no_solution lvl (frozenSet lvl (π 0).boxes)
      (frozenSet_wedged lvl (π 0).boxes) n π hpath hv
      (frozenSet_subset lvl (π 0).boxes) hd

/-! ### A* driver correctness (§4.6) -/

lemma insertEntry_mem (e : Entry) : ∀ (l : List Entry) (x : Entry),
    x ∈ insertEntry e l ↔ x = e ∨ x ∈ l := by
  intro l
  induction l with
  | nil => intro x; simp [insertEntry]
  | cons y ys ih =>
    intro x
    unfold insertEntry
    split_ifs with h
    · rw [List.mem_cons, ih x, List.mem_cons]
      tauto
    · simp only [List.mem_cons]

lemma insertEntry_sorted (e : Entry) : ∀ (l : List Entry),
    SortedF l → SortedF (insertEntry e l) := by
  intro l
  induction l with
  | nil => intro _; simp [insertEntry, SortedF]
  | cons y ys ih =>
    intro hs
    unfold SortedF at hs ⊢
    rw [List.sorted_cons] at hs
    unfold insertEntry
    split_ifs with h
    · rw [List.sorted_cons]
      refine ⟨?_, ih hs.2⟩
      intro b hb
      rcases (insertEntry_mem e ys b).mp hb with rfl | hb
      · exact h
      · exact hs.1 b hb
    · rw [List.sorted_cons]
      refine ⟨?_, List.sorted_cons.mpr hs⟩
      intro b hb
      rcases List.mem_cons.mp hb with rfl | hb
      · exact le_of_not_le h
      · exact le_trans (le_of_not_le h) (hs.1 b hb)

lemma foldl_insertEntry_mem (mk : SState → Entry) :
    ∀ (items : List SState) (fr : List Entry) (x : Entry),
    x ∈ items.foldl (fun fr t => insertEntry (mk t) fr) fr ↔
      x ∈ fr ∨ ∃ t ∈ items, x = mk t := by
  intro items
  induction items with
  | nil => intro fr x; simp
  | cons t ts ih =>
    intro fr x
    rw [List.foldl_cons, ih (insertEntry (mk t) fr) x]
    rw [insertEntry_mem]
    simp only [List.mem_cons]
    constructor
    · rintro ((rfl | hx) | ⟨u, hu, rfl⟩)
      · exact Or.inr ⟨t, Or.inl rfl, rfl⟩
      · exact Or.inl hx
      · exact Or.inr ⟨u, Or.inr hu, rfl⟩
    · rintro (hx | ⟨u, (rfl | hu), rfl⟩)
      · exact Or.inl (Or.inr hx)
      · exact Or.inl (Or.inl rfl)
      · exact Or.inr ⟨u, hu, rfl⟩

lemma foldl_insertEntry_sorted (mk : SState → Entry) :
    ∀ (items : List SState) (fr : List Entry),
    SortedF fr →
    SortedF (items.foldl (fun fr t => insertEntry (mk t) fr) fr) := by
  intro items
  induction items with
  | nil => intro fr h; exact h
  | cons t ts ih =>
    intro fr h
    exact ih (insertEntry (mk t) fr) (insertEntry_sorted (mk t) fr h)

lemma manhattan_step (b d : Pos) (hd : d ∈ neighborDeltas) :
    manhattan b (stepPos b d) = 1 := by
  simp only [neighborDeltas, List.mem_cons, List.not_mem_nil, or_false] at hd
  rcases hd with rfl | rfl | rfl | rfl <;>
    · unfold manhattan stepPos
      simp only
      omega

/-- One push lowers the heuristic by at most one (consistency on
edges). -/
lemma heuristic_push_consistent (lvl : BoardState) (c c2 : Config)
    (hv : ValidCfg lvl c) (h : PushStep lvl c c2) :
    heuristic lvl c.boxes ≤ heuristic lvl c2.boxes + 1 := by
  obtain ⟨b, hb, d, hd, hreach, hfl, hfree, rfl⟩ := h
  exact heuristic_consistent lvl c.boxes b (stepPos b d) hb hfree
    (manhattan_step b d hd) hv.2.2.2

/-- Telescoping consistency along a path: the heuristic at any point
is bounded by the remaining length plus the final heuristic. -/
lemma heuristic_telescope (lvl : BoardState) (π : ℕ → Config) (n : ℕ)
    (hpath : IsPushPath lvl π n) (hv : ValidCfg lvl (π 0)) :
    ∀ i j, i + j ≤ n →
    heuristic lvl (π i).boxes ≤ j + heuristic lvl (π (i + j)).boxes := by
  intro i j
  induction j generalizing i with
  | zero => intro _; simp
  | succ j ih =>
    intro hij
    have hlt : i < n := by omega
    have h1 := heuristic_push_consistent lvl (π i) (π (i + 1))
      (path_valid lvl π n hpath hv i (le_of_lt hlt)) (hpath i hlt)
    have h2 := ih (i + 1) (by omega)
    have heq : i + 1 + j = i + (j + 1) := by omega
    rw [heq] at h2
    omega

/-- Appending one more push to a finite play. -/
lemma path_snoc (lvl : BoardState) (π : ℕ → Config) (n : ℕ) (c2 : Config)
    (hpath : IsPushPath lvl π n) (hstep : PushStep lvl (π n) c2) :
    ∃ π2 : ℕ → Config, π2 0 = π 0 ∧ IsPushPath lvl π2 (n + 1) ∧
      π2 (n + 1) = c2 := by
  refine ⟨fun i => if i ≤ n then π i else c2, ?_, ?_, ?_⟩
  · simp
  · intro i hi
    by_cases h1 : i ≤ n
    · by_cases h2 : i + 1 ≤ n
      · simpa [h1, h2] using hpath i (by omega)
      · have : i = n := by omega
        subst this
        simpa [h1, h2] using hstep
    · omega
  · simp

/-- States along a solution path are never deadlock-flagged. -/
lemma solution_path_live (lvl : BoardState) (π : ℕ → Config) (n : ℕ)
    (hpath : IsPushPath lvl π n) (hv : ValidCfg lvl (π 0))
    (hgoal : (π n).boxes ⊆ lvl.goals) :
    ∀ i, i ≤ n → ¬ deadlocked lvl (π i).boxes := by
  intro i hi hd
  have hshift : IsPushPath lvl (fun j => π (i + j)) (n - i) := by
    intro j hj
    show PushStep lvl (π (i + j)) (π (i + (j + 1)))
    have heq : i + (j + 1) = (i + j) + 1 := by omega
    rw [heq]
    exact hpath (i + j) (by omega)
  have hvi : ValidCfg lvl (π (i + 0)) := by
    simpa using path_valid lvl π n hpath hv i hi
  refine deadlocked_no_solution lvl (n - i) (fun j => π (i + j)) hshift
    (by simpa using hvi) (by simpa using hd) ?_
  show (π (i + (n - i))).boxes ⊆ lvl.goals
  have heq : i + (n - i) = n := by omega
  rw [heq]
  exact hgoal

lemma absState_boxes (lvl : BoardState) (c : Config) :
    (absState lvl c).boxes = c.boxes := rfl

/-- The key A* bound: when the head of the sorted frontier has an
unvisited state, its `f` value is below the length-plus-heuristic of
every live push path whose endpoint is unvisited. -/
lemma pop_min (lvl : BoardState) (c0 : Config) (hv0 : ValidCfg lvl c0)
    (e : Entry) (rest : List Entry) (visited : Finset SState)
    (gv : SState → ℕ)
    (hsort : SortedF (e :: rest))
    (hA : ∀ x ∈ e :: rest, EntrySound lvl c0 x)
    (hstart : StartInv lvl c0 visited (e :: rest))
    (hvis : VisInv lvl c0 visited (e :: rest) gv)
    (n : ℕ) (π : ℕ → Config) (hp0 : π 0 = c0) (hpath : IsPushPath lvl π n)
    (hlive : ∀ i, i ≤ n → ¬ deadlocked lvl (π i).boxes)
    (hnv : absState lvl (π n) ∉ visited) :
    e.g + heuristic lvl e.state.boxes ≤
      n + heuristic lvl (π n).boxes := by
  have hminf : ∀ x ∈ e :: rest, fVal e ≤ fVal x := by
    intro x hx
    rcases List.mem_cons.mp hx with rfl | hx
    · exact le_refl _
    · exact (List.sorted_cons.mp hsort).1 x hx
  have hex : ∃ i, absState lvl (π i) ∉ visited := ⟨n, hnv⟩
  have hi_spec : absState lvl (π (Nat.find hex)) ∉ visited := Nat.find_spec hex
  have hi_min : ∀ j, j < Nat.find hex → absState lvl (π j) ∈ visited :=
    fun j hj => not_not.mp (Nat.find_min hex hj)
  have hi_le : Nat.find hex ≤ n := Nat.find_min' hex hnv
  set i := Nat.find hex with hidef
  have hkey : fVal e ≤ i + heuristic lvl (π i).boxes := by
    rcases Nat.eq_zero_or_pos i with hi0 | hipos
    · rw [hi0]
      have h0 : absState lvl c0 ∉ visited := by
        rw [← hp0]
        rw [hi0] at hi_spec
        exact hi_spec
      rcases hstart with h | ⟨e0, he0mem, he0st, he0g⟩
      · exact absurd h h0
      · have hle := hminf e0 he0mem
        have hsound := hA e0 he0mem
        have : fVal e0 = 0 + heuristic lvl (π 0).boxes := by
          unfold fVal
          rw [he0g, hsound.1, he0st, hp0]
          rfl
        omega
    · set i2 := i - 1 with hi2def
      have hi2lt : i2 < i := by omega
      have hi2n : i2 < n := by omega
      have hs2v : absState lvl (π i2) ∈ visited := hi_min i2 hi2lt
      have hedge : PushStep lvl (π i2) (π (i2 + 1)) := hpath i2 hi2n
      have hvalid2 : ValidCfg lvl (π i2) :=
        path_valid lvl π n hpath (hp0 ▸ hv0) i2 (le_of_lt hi2n)
      have hG1 := genPushes_complete lvl (π i2) (π (i2 + 1)) hvalid2 hedge
      have hi21 : i2 + 1 = i := by omega
      rw [hi21] at hG1
      have hlive_i : ¬ deadlocked lvl (absState lvl (π i)).boxes := by
        rw [absState_boxes]
        exact hlive i hi_le
      rcases hvis.2 (absState lvl (π i2)) hs2v (absState lvl (π i)) hG1
        hlive_i with hvt | ⟨e2, he2mem, he2st, he2g⟩
      · exact absurd hvt hi_spec
      · have hgv : gv (absState lvl (π i2)) ≤ i2 :=
          hvis.1 _ hs2v i2 π hp0 (fun j hj => hpath j (by omega))
            (fun j hj => hlive j (by omega)) rfl
        have hsound2 := hA e2 he2mem
        have hle := hminf e2 he2mem
        have he2h : e2.h = heuristic lvl (π i).boxes := by
          rw [hsound2.1, he2st, absState_boxes]
        unfold fVal at hle ⊢
        omega
  have htele := heuristic_telescope lvl π n hpath (hp0 ▸ hv0) i (n - i)
    (by omega)
  have hin : i + (n - i) = n := by omega
  rw [hin] at htele
  have hAe := hA e (List.mem_cons_self _ _)
  have hfe : fVal e = e.g + heuristic lvl e.state.boxes := by
    unfold fVal
    rw [hAe.1]
  omega

/-- One step of the A* loop, as an equation. -/
lemma astarLoop_cons (lvl : BoardState) (fuel : ℕ) (e : Entry)
    (rest : List Entry) (visited : Finset SState) :
    astarLoop lvl (fuel + 1) (e :: rest) visited =
      if e.state ∈ visited then astarLoop lvl fuel rest visited
      else if isGoalState lvl e.state then .solved e.g
      else astarLoop lvl fuel
        (((genPushes lvl e.state).filter
          (fun t => ¬ deadlocked lvl t.boxes ∧
            t ∉ insert e.state visited)).foldl
          (fun fr t =>
            insertEntry ⟨t, e.g + 1, heuristic lvl t.boxes⟩ fr) rest)
        (insert e.state visited) := rfl

/-- Master correctness of the A* loop: a `solved k` outcome means a
real `k`-push solution exists and no solution uses fewer pushes. -/
lemma astar_correct (lvl : BoardState) (c0 : Config) (hv0 : ValidCfg lvl c0) :
    ∀ (fuel : ℕ) (frontier : List Entry) (visited : Finset SState)
      (gv : SState → ℕ),
    SortedF frontier →
    (∀ x ∈ frontier, EntrySound lvl c0 x) →
    StartInv lvl c0 visited frontier →
    GoalFree lvl visited →
    VisInv lvl c0 visited frontier gv →
    ∀ k, astarLoop lvl fuel frontier visited = .solved k →
      (∃ n, n ≤ k ∧ SolutionFrom lvl c0 n) ∧
      (∀ n, SolutionFrom lvl c0 n → k ≤ n) := by
  intro fuel
  induction fuel with
  | zero =>
    intro frontier visited gv _ _ _ _ _ k hrun
    exact absurd hrun (by simp [astarLoop])
  | succ fuel ih =>
    intro frontier visited gv hsort hA hstart hgf hvis k hrun
    cases frontier with
    | nil => exact absurd hrun (by simp [astarLoop])
    | cons e rest =>
      have hsort2 : SortedF rest := (List.sorted_cons.mp hsort).2
      by_cases hv : e.state ∈ visited
      · have hrun2 : astarLoop lvl fuel rest visited = .solved k := by
          rw [astarLoop_cons, if_pos hv] at hrun
          exact hrun
        refine ih rest visited gv hsort2
          (fun x hx => hA x (List.mem_cons_of_mem _ hx)) ?_ hgf ?_ k hrun2
        · rcases hstart with h | ⟨e0, hmem, hst, hg0⟩
          · exact Or.inl h
          · rcases List.mem_cons.mp hmem with rfl | hmem
            · exact Or.inl (hst ▸ hv)
            · exact Or.inr ⟨e0, hmem, hst, hg0⟩
        · refine ⟨hvis.1, ?_⟩
          intro s hs t ht hd
          rcases hvis.2 s hs t ht hd with h | ⟨e2, hmem, hst, hgle⟩
          · exact Or.inl h
          · rcases List.mem_cons.mp hmem with rfl | hmem
            · exact Or.inl (hst ▸ hv)
            · exact Or.inr ⟨e2, hmem, hst, hgle⟩
      · by_cases hg : isGoalState lvl e.state
        · have hk : k = e.g := by
            rw [astarLoop_cons, if_neg hv, if_pos hg] at hrun
            cases hrun
            rfl
          subst hk
          obtain ⟨hh, π, m, hm, hp0, hpath, habs⟩ :=
            hA e (List.mem_cons_self _ _)
          have hπm_card : (π m).boxes.card = lvl.goals.card :=
            (path_valid lvl π m hpath (hp0 ▸ hv0) m (le_refl m)).2.2.2
          have hπm_boxes : (π m).boxes = e.state.boxes := by
            rw [← habs, absState_boxes]
          constructor
          · exact ⟨m, hm, π, hp0, hpath, by rw [hπm_boxes]; exact hg⟩
          · rintro n ⟨π2, hp20, hpath2, hgoal2⟩
            have hv20 : ValidCfg lvl (π2 0) := hp20 ▸ hv0
            have hlive := solution_path_live lvl π2 n hpath2 hv20 hgoal2
            have hnv : absState lvl (π2 n) ∉ visited := by
              intro hc
              exact hgf _ hc (by
                show (absState lvl (π2 n)).boxes ⊆ lvl.goals
                rw [absState_boxes]
                exact hgoal2)
            have hb := pop_min lvl c0 hv0 e rest visited gv hsort hA hstart
              hvis n π2 hp20 hpath2 hlive hnv
            have hz1 : heuristic lvl e.state.boxes = 0 := by
              refine heuristic_goal_zero lvl _ hg ?_
              rw [← hπm_boxes]
              exact hπm_card
            have hz2 : heuristic lvl (π2 n).boxes = 0 := by
              refine heuristic_goal_zero lvl _ hgoal2 ?_
              exact (path_valid lvl π2 n hpath2 hv20 n (le_refl n)).2.2.2
            omega
        · -- expansion step
          have hrun2 : astarLoop lvl fuel
              (((genPushes lvl e.state).filter
                (fun t => ¬ deadlocked lvl t.boxes ∧
                  t ∉ insert e.state visited)).foldl
                (fun fr t =>
                  insertEntry ⟨t, e.g + 1, heuristic lvl t.boxes⟩ fr) rest)
              (insert e.state visited) = .solved k := by
            rw [astarLoop_cons, if_neg hv, if_neg hg] at hrun
            exact hrun
          set visited2 := insert e.state visited with hvisited2
          set succs := (genPushes lvl e.state).filter
            (fun t => ¬ deadlocked lvl t.boxes ∧ t ∉ visited2) with hsuccs
          set mk := fun t : SState =>
            (⟨t, e.g + 1, heuristic lvl t.boxes⟩ : Entry) with hmk
          set frontier2 := succs.foldl
            (fun fr t => insertEntry (mk t) fr) rest with hfrontier2
          set gv2 := fun t => if t = e.state then e.g else gv t with hgv2
          obtain ⟨hhe, πe, me, hme, hpe0, hpathe, habse⟩ :=
            hA e (List.mem_cons_self _ _)
          refine ih frontier2 visited2 gv2 ?_ ?_ ?_ ?_ ?_ k hrun2
          · exact foldl_insertEntry_sorted mk succs rest hsort2
          · intro x hx
            rcases (foldl_insertEntry_mem mk succs rest x).mp hx with
              hx | ⟨t, htmem, rfl⟩
            · exact hA x (List.mem_cons_of_mem _ hx)
            · have htgen : t ∈ genPushes lvl e.state :=
                (List.mem_filter.mp htmem).1
              have hvalidm : ValidCfg lvl (πe me) :=
                path_valid lvl πe me hpathe (hpe0 ▸ hv0) me (le_refl me)
              obtain ⟨c2, hstep, habs2⟩ := genPushes_sound lvl (πe me)
                hvalidm t (by rw [habse]; exact htgen)
              obtain ⟨π3, hp30, hpath3, hp3end⟩ :=
                path_snoc lvl πe me c2 hpathe hstep
              refine ⟨rfl, π3, me + 1, ?_, by rw [hp30]; exact hpe0,
                hpath3, by rw [hp3end]; exact habs2⟩
              show me + 1 ≤ e.g + 1
              omega
          · rcases hstart with h | ⟨e0, hmem, hst, hg0⟩
            · exact Or.inl (Finset.mem_insert_of_mem h)
            · rcases List.mem_cons.mp hmem with rfl | hmem
              · exact Or.inl (hst ▸ Finset.mem_insert_self _ _)
              · exact Or.inr ⟨e0,
                  (foldl_insertEntry_mem mk succs rest e0).mpr (Or.inl hmem),
                  hst, hg0⟩
          · intro s hs
            rcases Finset.mem_insert.mp hs with rfl | hs
            · exact hg
            · exact hgf s hs
          · constructor
            · intro s hs n π2 hp20 hpath2 hlive2 habs2
              rcases Finset.mem_insert.mp hs with rfl | hs
              · have hnv2 : absState lvl (π2 n) ∉ visited := habs2 ▸ hv
                have hb := pop_min lvl c0 hv0 e rest visited gv hsort hA
                  hstart hvis n π2 hp20 hpath2 hlive2 hnv2
                have hbx : (π2 n).boxes = e.state.boxes := by
                  rw [← habs2, absState_boxes]
                rw [hbx] at hb
                have : gv2 e.state = e.g := by
                  rw [hgv2]
                  simp
                omega
              · have hne : s ≠ e.state := fun hc => hv (hc ▸ hs)
                have : gv2 s = gv s := by
                  rw [hgv2]
                  simp [hne]
                rw [this]
                exact hvis.1 s hs n π2 hp20 hpath2 hlive2 habs2
            · intro s hs t ht hd
              rcases Finset.mem_insert.mp hs with rfl | hs
              · by_cases htv : t ∈ visited2
                · exact Or.inl htv
                · refine Or.inr ⟨mk t,
                    (foldl_insertEntry_mem mk succs rest (mk t)).mpr
                      (Or.inr ⟨t, List.mem_filter.mpr ⟨ht, ?_⟩, rfl⟩),
                    rfl, ?_⟩
                  · simp only [decide_eq_true_eq]
                    exact ⟨hd, htv⟩
                  · have hgve : gv2 e.state = e.g := by
                      rw [hgv2]
                      simp
                    show e.g + 1 ≤ gv2 e.state + 1
                    rw [hgve]
              · have hne : s ≠ e.state := fun hc => hv (hc ▸ hs)
                rcases hvis.2 s hs t ht hd with h | ⟨e2, hmem, hst, hgle⟩
                · exact Or.inl (Finset.mem_insert_of_mem h)
                · rcases List.mem_cons.mp hmem with rfl | hmem
                  · exact Or.inl (hst ▸ Finset.mem_insert_self _ _)
                  · refine Or.inr ⟨e2,
                      (foldl_insertEntry_mem mk succs rest e2).mpr
                        (Or.inl hmem), hst, ?_⟩
                    have : gv2 s = gv s := by
                      rw [hgv2]
                      simp [hne]
                    rw [this]
                    exact hgle

/-- C4: push-optimality of the solver.  Whenever the spec-modelled
solver returns `Solved` with push count `k` on a well-formed level,
there is a sequence of `k` legal pushes placing every box on a goal,
and no legal push sequence that places every box on a goal is shorter
— `k` equals the minimum push count over all solutions. -/
theorem solve_push_optimal (lvl : BoardState) (pl0 : Pos)
    (hpl : lvl.player = some pl0)
    (hplf : floorCell lvl pl0) (hplB : pl0 ∉ lvl.boxes)
    (hboxes : ∀ b ∈ lvl.boxes, floorCell lvl b)
    (hcard : lvl.boxes.card = lvl.goals.card)
    (cap k : ℕ) (hrun : solve lvl cap = .solved k) :
    SolutionFrom lvl ⟨pl0, lvl.boxes⟩ k ∧
    (∀ n, SolutionFrom lvl ⟨pl0, lvl.boxes⟩ n → k ≤ n) := by
  have hv0 : ValidCfg lvl ⟨pl0, lvl.boxes⟩ := ⟨hplf, hplB, hboxes, hcard⟩
  have hrun2 : astarLoop lvl cap
      [⟨normalize lvl lvl.boxes pl0, 0,
        heuristic lvl (normalize lvl lvl.boxes pl0).boxes⟩] ∅ =
      .solved k := by
    unfold solve at hrun
    rw [hpl] at hrun
    exact hrun
  have habs0 : absState lvl ⟨pl0, lvl.boxes⟩ =
      normalize lvl lvl.boxes pl0 := rfl
  obtain ⟨⟨n, hnk, hsol⟩, hopt⟩ :=
    astar_correct lvl ⟨pl0, lvl.boxes⟩ hv0 cap
      [⟨normalize lvl lvl.boxes pl0, 0,
        heuristic lvl (normalize lvl lvl.boxes pl0).boxes⟩] ∅ (fun _ => 0)
      (List.sorted_singleton _)
      (by
        intro x hx
        rw [List.mem_singleton] at hx
        subst hx
        refine ⟨rfl, fun _ => ⟨pl0, lvl.boxes⟩, 0, le_refl 0, rfl, ?_, ?_⟩
        · intro i hi
          exact absurd hi (Nat.not_lt_zero i)
        · exact habs0)
      (Or.inr ⟨_, List.mem_singleton_self _, habs0.symm, rfl⟩)
      (fun s hs => absurd hs (Finset.not_mem_empty s))
      ⟨fun s hs => absurd hs (Finset.not_mem_empty s),
       fun s hs => absurd hs (Finset.not_mem_empty s)⟩
      k hrun2
  have hkn : k ≤ n := hopt n hsol
  have heq : n = k := le_antisymm hnk hkn
  exact ⟨heq ▸ hsol, hopt⟩

set_option maxRecDepth 4000 in
set_option maxHeartbeats 2000000 in
theorem solve_push_optimal_witness :
    SolutionFrom (parseLevel [['@', '$', '.']])
      ⟨((0 : ℤ), (0 : ℤ)), (parseLevel [['@', '$', '.']]).boxes⟩ 1 ∧
    (∀ n, SolutionFrom (parseLevel [['@', '$', '.']])
      ⟨((0 : ℤ), (0 : ℤ)), (parseLevel [['@', '$', '.']]).boxes⟩ n → 1 ≤ n) :=
  solve_push_optimal (parseLevel [['@', '$', '.']]) ((0 : ℤ), (0 : ℤ))
    (by decide) (by decide) (by decide) (by decide) (by decide) 10 1 (by decide)

end Sokobot
